import Mathlib

/-!
# Verification of `prompt_parser.py` (Adversarial-Testing repository)

Shallow embedding of the two functions of `src/prompt_parser.py`:

* `parse_amount`  (the spec calls it the Amount Normalizer / `normalize_amount`)
* `parse_constraints` (the spec calls it the Constraint Extractor /
  `extract_constraints`)

Modelling conventions:

* Python strings are `List Char`.  All text handled by the claims is ASCII;
  character classes (`\d`, `\s`), `str.lower()` and `re.IGNORECASE` are
  modelled on the ASCII fragment.
* Python `float` arithmetic is modelled by exact rational arithmetic (`ℚ`).
  The decimal literals occurring in the program and in the claims are exact
  in both models; double rounding error (≈1e-16) is not modelled.
* Python `int` is `ℤ`; Python `//` (floor division) is `Int.fdiv`.
* A raised exception is `Except.error ()`; `None` returned from
  `parse_amount` is the `none` of an `Option`.
* The four `re.search` calls are modelled by a small backtracking regex
  engine (`mAll` / `searchRE`) over a regex AST that transliterates the four
  pattern strings constructor by constructor, with Python's semantics:
  leftmost starting position wins, alternatives are tried left to right,
  quantifiers are greedy with backtracking, literals compare
  case-insensitively, capture groups store the original-case matched text.
-/

set_option maxRecDepth 100000
set_option maxHeartbeats 4000000

/-- ASCII `\d` (Python `\d` additionally matches non-ASCII Unicode digits,
which are outside the modelled fragment). -/
def isDigitChar (c : Char) : Bool :=
  48 ≤ c.toNat && c.toNat ≤ 57

/-- ASCII `\s` / `str.strip` whitespace: space, tab, LF, VT, FF, CR. -/
def isSpaceChar (c : Char) : Bool :=
  c.toNat == 32 || c.toNat == 9 || c.toNat == 10 ||
  c.toNat == 11 || c.toNat == 12 || c.toNat == 13

/-- ASCII lower-casing, as done by `str.lower()` on ASCII text. -/
def charLower (c : Char) : Char :=
  if 65 ≤ c.toNat ∧ c.toNat ≤ 90 then Char.ofNat (c.toNat + 32) else c

/-- `str.strip()` on ASCII text. -/
def pyStrip (s : List Char) : List Char :=
  ((s.dropWhile isSpaceChar).reverse.dropWhile isSpaceChar).reverse

/-- `str.lower()` on ASCII text. -/
def pyLower (s : List Char) : List Char :=
  s.map charLower

/-- `str.replace(ch, "")`: remove every occurrence of the character `ch`. -/
def removeChar (ch : Char) (s : List Char) : List Char :=
  s.filter (fun c => c ≠ ch)

/-- Exact-prefix test (used for substring containment, i.e. Python `in`). -/
def startsWith : List Char → List Char → Bool
  | [], _ => true
  | _ :: _, [] => false
  | a :: as, b :: bs => a == b && startsWith as bs

/-- Python `w in s` substring containment. -/
def hasSubstr (w : List Char) : List Char → Bool
  | [] => startsWith w []
  | c :: rest => startsWith w (c :: rest) || hasSubstr w rest

/-- Case-insensitive literal matching: consume `l` (case-insensitively) from
the front of the input, returning the rest. -/
def matchLit : List Char → List Char → Option (List Char)
  | [], s => some s
  | _ :: _, [] => none
  | l :: ls, c :: cs =>
      if charLower c = charLower l then matchLit ls cs else none

/-- One leftmost match step of the pattern `\s*w` at the current position:
drop the (maximal) run of whitespace, then require the literal `w`
(case-insensitively, as `re.sub(..., flags=re.IGNORECASE)` does).  Returns
the rest of the input after the match.  (Backtracking into a shorter
whitespace run can never help, because `w` does not start with whitespace.) -/
def trySpacesWord (w : List Char) (s : List Char) : Option (List Char) :=
  matchLit w (s.dropWhile isSpaceChar)

/-- Fuelled scan of `re.sub(r"\s*" + w, "", s)`: replace every
(non-overlapping, leftmost) occurrence of whitespace-then-`w` by nothing.
Each removal consumes at least `w.length ≥ 1` characters, so fuel
`s.length + 1` always suffices. -/
def subAux (w : List Char) : Nat → List Char → List Char
  | 0, s => s
  | _ + 1, [] => []
  | fuel + 1, c :: rest =>
      match trySpacesWord w (c :: rest) with
      | some rest2 => subAux w fuel rest2
      | none => c :: subAux w fuel rest

/-- `re.sub(r"\s*" + w, "", s, flags=re.IGNORECASE)` for a non-empty word `w`. -/
def subSpacesWord (w s : List Char) : List Char :=
  subAux w (s.length + 1) s

/-- Value of a digit string (`int("...")` on the digit strings captured by the
patterns; captures contain only ASCII digits). -/
def natOfDigits (l : List Char) : Nat :=
  l.foldl (fun a c => 10 * a + (c.toNat - 48)) 0

/-- `int()` on a captured digit string. -/
def pyInt (l : List Char) : ℤ :=
  (natOfDigits l : ℤ)

/-- Exponent part of a float literal: `[+|-]digits`, all input consumed. -/
def expVal? (s : List Char) : Option ℤ :=
  match s with
  | '+' :: rest =>
      if rest ≠ [] ∧ rest.all isDigitChar then some (natOfDigits rest : ℤ) else none
  | '-' :: rest =>
      if rest ≠ [] ∧ rest.all isDigitChar then some (-(natOfDigits rest : ℤ)) else none
  | _ =>
      if s ≠ [] ∧ s.all isDigitChar then some (natOfDigits s : ℤ) else none

/-- Unsigned core of a Python float literal:
`digits [. digits] [(e|E) exp]` or `. digits [(e|E) exp]`, with at least one
mantissa digit.  Python's special literals (`inf`, `infinity`, `nan`) and
digit-group underscores are outside the modelled fragment. -/
def floatCore? (s : List Char) : Option ℚ :=
  let ip := s.takeWhile isDigitChar
  let rest := s.dropWhile isDigitChar
  match rest with
  | [] => if ip = [] then none else some (natOfDigits ip : ℚ)
  | '.' :: r2 =>
      let fp := r2.takeWhile isDigitChar
      let r3 := r2.dropWhile isDigitChar
      if ip = [] ∧ fp = [] then none
      else
        let base : ℚ := (natOfDigits ip : ℚ) + (natOfDigits fp : ℚ) / (10 : ℚ) ^ fp.length
        match r3 with
        | [] => some base
        | e :: r4 =>
            if e = 'e' ∨ e = 'E' then (expVal? r4).map (fun k => base * (10 : ℚ) ^ k)
            else none
  | e :: r4 =>
      if (e = 'e' ∨ e = 'E') ∧ ip ≠ [] then
        (expVal? r4).map (fun k => (natOfDigits ip : ℚ) * (10 : ℚ) ^ k)
      else none

/-- Python `float(str)` on the modelled fragment: optional surrounding
whitespace, optional sign, decimal literal with optional exponent.
`none` models `float` raising `ValueError`. -/
def pyFloat? (s : List Char) : Option ℚ :=
  let t := pyStrip s
  match t with
  | '+' :: r => floatCore? r
  | '-' :: r => (floatCore? r).map Neg.neg
  | _ => floatCore? t

/-- Python `round(q)` (one-argument `round`: round half to even, returns an
int).  Exact-rational model of the float rounding done by the source. -/
def pyRound (q : ℚ) : ℤ :=
  let f := q.floor
  let r := q - (f : ℚ)
  if r < 1 / 2 then f
  else if 1 / 2 < r then f + 1
  else if f % 2 = 0 then f else f + 1

/-- Python `round(q, 2)` (round half to even at two decimal places).
Exact-rational model. -/
def pyRound2 (q : ℚ) : ℚ :=
  ((pyRound (q * 100) : ℚ)) / 100

/-- `"million"` as a char list. -/
def millionL : List Char := ['m', 'i', 'l', 'l', 'i', 'o', 'n']

/-- `"billion"` as a char list. -/
def billionL : List Char := ['b', 'i', 'l', 'l', 'i', 'o', 'n']

/-- The string cleaned as in `parse_amount` just before the `float()` call:
strip / lower / remove `$`; remove `\s*million` (resp. `billion`) if the
word occurs; remove commas; strip. -/
def amountRemainder (s : List Char) : List Char :=
  let v1 := removeChar '$' (pyLower (pyStrip s))
  let v2 :=
    if hasSubstr millionL v1 then subSpacesWord millionL v1
    else if hasSubstr billionL v1 then subSpacesWord billionL v1
    else v1
  pyStrip (removeChar ',' v2)

/-- The multiplier chosen in `parse_amount`: 1e6 if `'million' in value`,
else 1e9 if `'billion' in value`, else 1. -/
def amountMult (s : List Char) : ℚ :=
  let v1 := removeChar '$' (pyLower (pyStrip s))
  if hasSubstr millionL v1 then 1000000
  else if hasSubstr billionL v1 then 1000000000
  else 1

/-- The string branch of `parse_amount` (lines 23–34 of the source):
`.error ()` models the uncaught `ValueError` of `float(...)`. -/
def parse_amount_str (s : List Char) : Except Unit ℚ :=
  match pyFloat? (amountRemainder s) with
  | some q => .ok (q * amountMult s)
  | none => .error ()

/-- Abstraction of the Python values `parse_amount` may receive: an `int`, a
`float`, a `str`, or anything else (e.g. `None`, a list, ...). -/
inductive PyVal where
  | int : ℤ → PyVal
  | float : ℚ → PyVal
  | str : List Char → PyVal
  | other : PyVal

/-- `parse_amount` (source lines 8–34).  `ok (some q)` models returning a
float, `ok none` models returning `None`, `error ()` models an uncaught
exception. -/
def parse_amount : PyVal → Except Unit (Option ℚ)
  | .int n => .ok (some (n : ℚ))
  | .float q => .ok (some q)
  | .str s => (parse_amount_str s).map some
  | .other => .ok none

/-!
## The regex engine

`RE` transliterates the regex syntax actually used by the four patterns of
`parse_constraints`.  `mAll` enumerates, in Python's backtracking priority
order, every way a pattern can match a *prefix* of the input, as pairs
(capture groups, remaining input).  `searchRE` is `re.search`: it returns
the captures of the highest-priority match at the leftmost matching
position.

`mAll` is fuelled: each recursion level consumes one unit.  The fuel passed
by `searchRE` is `(input length + 2) * (pattern size + 2)`, which bounds the
call depth: the nesting depth of the pattern contributes `reSize` levels,
and every unrolling step of a `star`/`rep` either consumes an input
character (stars whose body matched a non-empty prefix — enforced by the
progress filter, which also reproduces Python's termination behaviour on
empty star iterations) or decreases the pending repetition count (which is
at most `reSize`).  Exhausted fuel yields no matches; with the bound above
it is never exhausted.
-/

/-- Regex AST.  `lit` matches a literal case-insensitively (all four
searches pass `re.IGNORECASE`); `rep m e a` is `a{m, m+e}` (greedy);
`star` is `*` (greedy); `opt` is `?` (greedy); `group i a` is the `i`-th
capture group `(a)`. -/
inductive RE where
  | lit : List Char → RE
  | digit : RE
  | space : RE
  | seq : RE → RE → RE
  | alt : RE → RE → RE
  | opt : RE → RE
  | star : RE → RE
  | rep : Nat → Nat → RE → RE
  | group : Nat → RE → RE

/-- Capture-group environment: later bindings shadow earlier ones. -/
abbrev Groups := List (Nat × List Char)

/-- All ways `re` matches a prefix of `s`, in Python's backtracking priority
order (first = the match `re.search` commits to at this position).  Each
result is (captures, rest of input). -/
def mAll : Nat → RE → List Char → Groups → List (Groups × List Char)
  | 0, _, _, _ => []
  | fuel + 1, re, s, g =>
    match re with
    | .lit l =>
        match matchLit l s with
        | some rest => [(g, rest)]
        | none => []
    | .digit =>
        match s with
        | c :: rest => if isDigitChar c then [(g, rest)] else []
        | [] => []
    | .space =>
        match s with
        | c :: rest => if isSpaceChar c then [(g, rest)] else []
        | [] => []
    | .seq a b =>
        (mAll fuel a s g).flatMap (fun r => mAll fuel b r.2 r.1)
    | .alt a b =>
        mAll fuel a s g ++ mAll fuel b s g
    | .opt a =>
        mAll fuel a s g ++ [(g, s)]
    | .star a =>
        ((mAll fuel a s g).filter (fun r => r.2.length < s.length)).flatMap
          (fun r => mAll fuel (.star a) r.2 r.1) ++ [(g, s)]
    | .rep 0 0 _ => [(g, s)]
    | .rep 0 (e + 1) a =>
        ((mAll fuel a s g).filter (fun r => r.2.length < s.length)).flatMap
          (fun r => mAll fuel (.rep 0 e a) r.2 r.1) ++ [(g, s)]
    | .rep (m + 1) e a =>
        (mAll fuel a s g).flatMap (fun r => mAll fuel (.rep m e a) r.2 r.1)
    | .group i a =>
        (mAll fuel a s g).map
          (fun r => ((i, s.take (s.length - r.2.length)) :: r.1, r.2))

/-- Size measure used only to compute a sufficient fuel. -/
def reSize : RE → Nat
  | .lit l => l.length + 1
  | .digit => 1
  | .space => 1
  | .seq a b => reSize a + reSize b + 1
  | .alt a b => reSize a + reSize b + 1
  | .opt a => reSize a + 1
  | .star a => reSize a + 1
  | .rep m e a => reSize a + m + e + 1
  | .group _ a => reSize a + 1

/-- Fuel that is never exhausted on input `s` (see the module comment). -/
def fuelFor (re : RE) (s : List Char) : Nat :=
  (s.length + 2) * (reSize re + 2)

/-- `re.search(pattern, s)`: try every starting position from the left; at
the first position where the pattern matches, return the capture groups of
the highest-priority match. -/
def searchRE (re : RE) : List Char → Option Groups
  | [] =>
      match mAll (fuelFor re []) re [] [] with
      | r :: _ => some r.1
      | [] => none
  | c :: rest =>
      match mAll (fuelFor re (c :: rest)) re (c :: rest) [] with
      | r :: _ => some r.1
      | [] => searchRE re rest

/-- Literal regex piece (case-insensitive). -/
def rlit (s : String) : RE := RE.lit s.toList

/-- `(?:a1|a2|...|an)` — alternation, tried left to right. -/
def altList : List RE → RE
  | [] => RE.lit []
  | [a] => a
  | a :: rest => RE.alt a (altList rest)

/-!
## The four patterns

Each definition transliterates one regex string of `parse_constraints`
(source lines 47–49, 75–79, 101–104, 129–132), constructor by constructor.
Group numbers are the regex group numbers (the word-count pattern's named
groups `w_low`, `w_high`, `w_target` are groups 1, 2, 3).
-/

/-- `\s*` -/
def reWS : RE := RE.star RE.space

/-- `(?:-|to|and)` -/
def reRangeSep : RE := altList [rlit "-", rlit "to", rlit "and"]

/-- Word-count pattern (source lines 48):
`(?:(?:between|from)\s*(?P<w_low>\d{2,4})\s*(?:-|to|and)\s*(?P<w_high>\d{2,4})|(?P<w_target>\d{2,4}))\s*(?:words?|word)` -/
def reWordCount : RE :=
  .seq
    (.alt
      (.seq (.alt (rlit "between") (rlit "from"))
        (.seq reWS
          (.seq (.group 1 (.rep 2 2 .digit))
            (.seq reWS
              (.seq reRangeSep
                (.seq reWS (.group 2 (.rep 2 2 .digit))))))))
      (.group 3 (.rep 2 2 .digit)))
    (.seq reWS (.alt (.seq (rlit "word") (.opt (rlit "s"))) (rlit "word")))

/-- Budget magnitude: `\d{1,3}(?:,\d{3})*(?:\.\d+)?\s*(?:million|billion)` -/
def reMag : RE :=
  .seq (.rep 1 2 .digit)
    (.seq (.star (.seq (rlit ",") (.rep 3 0 .digit)))
      (.seq (.opt (.seq (rlit ".") (.seq .digit (.star .digit))))
        (.seq reWS (.alt (rlit "million") (rlit "billion")))))

/-- Budget pattern (source lines 76–78):
`(?:(?:under|below|maximum of|up to|not exceeding|≤|less than)\s*\$?\s*(MAG)|(?:at least|minimum of|no less than|exceeding|more than|over|≥)\s*\$?\s*(MAG)|\$?\s*(MAG)\s*(?:budget|cost|spend|capex|investment)?)`
where `MAG` is `reMag`. -/
def reBudget : RE :=
  .alt
    (.seq
      (altList [rlit "under", rlit "below", rlit "maximum of", rlit "up to",
                rlit "not exceeding", rlit "≤", rlit "less than"])
      (.seq reWS (.seq (.opt (rlit "$")) (.seq reWS (.group 1 reMag)))))
    (.alt
      (.seq
        (altList [rlit "at least", rlit "minimum of", rlit "no less than",
                  rlit "exceeding", rlit "more than", rlit "over", rlit "≥"])
        (.seq reWS (.seq (.opt (rlit "$")) (.seq reWS (.group 2 reMag)))))
      (.seq (.opt (rlit "$"))
        (.seq reWS
          (.seq (.group 3 reMag)
            (.seq reWS
              (.opt (altList [rlit "budget", rlit "cost", rlit "spend",
                              rlit "capex", rlit "investment"])))))))

/-- Percentage number: `\d{1,3}(?:\.\d+)?` -/
def rePctNum : RE :=
  .seq (.rep 1 2 .digit) (.opt (.seq (rlit ".") (.seq .digit (.star .digit))))

/-- Percentage pattern (source lines 102–103):
`(?:(?:between|from)\s*(\d{1,3}(?:\.\d+)?)\s*(?:%|percent)?\s*(?:-|to|and)\s*(\d{1,3}(?:\.\d+)?)\s*(?:%|percent)?|(\d{1,3}(?:\.\d+)?)\s*(?:percent|%))` -/
def rePercent : RE :=
  .alt
    (.seq (.alt (rlit "between") (rlit "from"))
      (.seq reWS
        (.seq (.group 1 rePctNum)
          (.seq reWS
            (.seq (.opt (.alt (rlit "%") (rlit "percent")))
              (.seq reWS
                (.seq reRangeSep
                  (.seq reWS
                    (.seq (.group 2 rePctNum)
                      (.seq reWS
                        (.opt (.alt (rlit "%") (rlit "percent")))))))))))))
    (.seq (.group 3 rePctNum)
      (.seq reWS (.alt (rlit "percent") (rlit "%"))))

/-- Timeframe unit: `(days?|weeks?|months?|years?)` (the capture is added at
the use sites). -/
def reUnit : RE :=
  altList
    [.seq (rlit "day") (.opt (rlit "s")),
     .seq (rlit "week") (.opt (rlit "s")),
     .seq (rlit "month") (.opt (rlit "s")),
     .seq (rlit "year") (.opt (rlit "s"))]

/-- Timeframe pattern (source lines 130–131):
`(?:(?:between|from)\s*(\d{1,4})\s*(days?|weeks?|months?|years?)\s*(?:-|to|and)\s*(\d{1,4})\s*(days?|weeks?|months?|years?)|(\d{1,4})\s*(days?|weeks?|months?|years?))` -/
def reTime : RE :=
  .alt
    (.seq (.alt (rlit "between") (rlit "from"))
      (.seq reWS
        (.seq (.group 1 (.rep 1 3 .digit))
          (.seq reWS
            (.seq (.group 2 reUnit)
              (.seq reWS
                (.seq reRangeSep
                  (.seq reWS
                    (.seq (.group 3 (.rep 1 3 .digit))
                      (.seq reWS (.group 4 reUnit)))))))))))
    (.seq (.group 5 (.rep 1 3 .digit))
      (.seq reWS (.group 6 reUnit)))

/-!
## The data model

One record type covers the four constraint kinds.  Python dict keys that a
kind never produces are `none`; a key that is present but holds Python
`None` (budget bounds) is `some none`.
-/

/-- A Python number: `int` or `float` (the dicts of the source hold both). -/
inductive PyNum where
  | int : ℤ → PyNum
  | float : ℚ → PyNum
deriving DecidableEq, Repr

/-- One constraint record (a Python dict).  For `lower_bound`/`upper_bound`,
`none` = key absent, `some none` = key present with value `None`,
`some (some v)` = key present with numeric value.  For the remaining
optional fields `none` = key absent (they never hold `None` in reachable
code). -/
structure CRecord where
  ctype : String
  target : Option PyNum
  lower_bound : Option (Option PyNum) := none
  upper_bound : Option (Option PyNum) := none
  tolerance : Option PyNum := none
  unit : Option (List Char) := none
  raw_value : Option (List Char) := none
deriving DecidableEq, Repr

/-- The result dict of `parse_constraints`: at most one record per kind;
`none` = key absent. -/
structure ConstraintSet where
  word_count : Option CRecord := none
  budget : Option CRecord := none
  percentage : Option CRecord := none
  timeframe : Option CRecord := none
deriving DecidableEq, Repr

/-- Word-count block of `parse_constraints` (source lines 47–72).
The only possible fault is the (unreachable) `.replace` call on a `None`
group. -/
def wordCountBlock (prompt : List Char) : Except Unit (Option CRecord) :=
  match searchRE reWordCount prompt with
  | none => .ok none
  | some g =>
    match List.lookup 1 g, List.lookup 2 g with
    | some lowS, some highS =>
        let lower := pyInt (removeChar ',' lowS)
        let upper := pyInt (removeChar ',' highS)
        .ok (some
          { ctype := "range"
            lower_bound := some (some (.int lower))
            upper_bound := some (some (.int upper))
            target := some (.int ((lower + upper).fdiv 2))
            tolerance := some (.int ((upper - lower).fdiv 2)) })
    | _, _ =>
        match List.lookup 3 g with
        | none => .error ()
        | some tS =>
            let value := pyInt (removeChar ',' tS)
            let tol : ℤ := max 10 (pyRound ((value : ℚ) * (1 / 10)))
            .ok (some
              { ctype := "fixed"
                lower_bound := some (some (.int (value - tol)))
                upper_bound := some (some (.int (value + tol)))
                target := some (.int value)
                tolerance := some (.int tol) })

/-- Budget block of `parse_constraints` (source lines 75–98).  The
`raw? = none` branch is unreachable but mirrors Python
(`parse_amount(None)` returns `None`, which is stored). -/
def budgetBlock (prompt : List Char) : Except Unit (Option CRecord) :=
  match searchRE reBudget prompt with
  | none => .ok none
  | some g =>
    let raw? := ((List.lookup 1 g).orElse fun _ =>
                  (List.lookup 2 g).orElse fun _ => List.lookup 3 g)
    let ctype : String :=
      if (List.lookup 1 g).isSome then "max"
      else if (List.lookup 2 g).isSome then "min"
      else "fixed"
    match raw? with
    | none =>
        .ok (some
          { ctype := ctype, target := none
            upper_bound := some none, lower_bound := some none
            raw_value := none })
    | some rawS =>
        match parse_amount_str rawS with
        | .error e => .error e
        | .ok q =>
            .ok (some
              { ctype := ctype
                target := some (.float q)
                upper_bound := some (if ctype = "max" then some (.float q) else none)
                lower_bound := some (if ctype = "min" then some (.float q) else none)
                raw_value := some rawS })

/-- Percentage block of `parse_constraints` (source lines 101–126).
`error` models the `float()` calls raising (unreachable on regex-matched
captures). -/
def percentBlock (prompt : List Char) : Except Unit (Option CRecord) :=
  match searchRE rePercent prompt with
  | none => .ok none
  | some g =>
    match List.lookup 1 g, List.lookup 2 g with
    | some loS, some hiS =>
        match pyFloat? loS, pyFloat? hiS with
        | some lo, some hi =>
            .ok (some
              { ctype := "range"
                lower_bound := some (some (.float lo))
                upper_bound := some (some (.float hi))
                target := some (.float ((lo + hi) / 2))
                tolerance := some (.float ((hi - lo) / 2)) })
        | _, _ => .error ()
    | _, _ =>
        match List.lookup 3 g with
        | none => .error ()
        | some tS =>
            match pyFloat? tS with
            | none => .error ()
            | some v =>
                let tol : ℚ := max 1 (pyRound2 (v * (1 / 10)))
                .ok (some
                  { ctype := "fixed"
                    target := some (.float v)
                    lower_bound := some (some (.float (v - tol)))
                    upper_bound := some (some (.float (v + tol)))
                    tolerance := some (.float tol) })

/-- Timeframe block of `parse_constraints` (source lines 129–155).  No
fault is possible: `int(group(5) or 0)` defaults to 0 and `unit` may store
`None` (modelled by `none`). -/
def timeBlock (prompt : List Char) : Option CRecord :=
  match searchRE reTime prompt with
  | none => none
  | some g =>
    match List.lookup 1 g, List.lookup 3 g with
    | some loS, some hiS =>
        some
          { ctype := "range"
            unit := List.lookup 2 g
            lower_bound := some (some (.int (pyInt loS)))
            upper_bound := some (some (.int (pyInt hiS)))
            target := some (.int ((pyInt loS + pyInt hiS).fdiv 2)) }
    | _, _ =>
        let value : ℤ :=
          match List.lookup 5 g with
          | some d => pyInt d
          | none => 0
        some { ctype := "fixed", unit := List.lookup 6 g, target := some (.int value) }

/-- `parse_constraints` (source lines 36–157); the spec's
`extract_constraints`.  The four searches run in source order; a fault in
any block (only the budget block can actually fault, via `parse_amount`)
aborts the whole call. -/
def parse_constraints (prompt : List Char) : Except Unit ConstraintSet :=
  match wordCountBlock prompt with
  | .error e => .error e
  | .ok w =>
    match budgetBlock prompt with
    | .error e => .error e
    | .ok b =>
      match percentBlock prompt with
      | .error e => .error e
      | .ok pc =>
        .ok { word_count := w, budget := b, percentage := pc,
              timeframe := timeBlock prompt }

/-!
## Concrete evaluation support

The Batteries `Rat` operations are `@[irreducible]`; evaluating the model
on concrete prompts inside `decide`/`rfl` proofs needs them reducible (the
kernel ignores reducibility annotations anyway). -/

attribute [local semireducible] Rat.mul Rat.add Rat.sub Rat.inv Rat.ofScientific

instance {α β : Type} [DecidableEq α] [DecidableEq β] : DecidableEq (Except α β)
  | .error a, .error b =>
      if h : a = b then .isTrue (by rw [h]) else .isFalse (by simp [h])
  | .ok a, .ok b =>
      if h : a = b then .isTrue (by rw [h]) else .isFalse (by simp [h])
  | .error _, .ok _ => .isFalse (by simp)
  | .ok _, .error _ => .isFalse (by simp)

/-!
## Syntactic pattern analyses (used by the universally quantified claims)
-/

/-- `reqDigit re = true` guarantees every successful match of `re` reads at
least one `\d` character from the input. -/
def reqDigit : RE → Bool
  | .digit => true
  | .seq a b => reqDigit a || reqDigit b
  | .alt a b => reqDigit a && reqDigit b
  | .group _ a => reqDigit a
  | .rep m _ a => decide (0 < m) && reqDigit a
  | _ => false

/-- Groups that every successful match of `re` necessarily binds. -/
def mandG : RE → List Nat
  | .seq a b => mandG a ++ mandG b
  | .alt a b => (mandG a).inter (mandG b)
  | .group i a => i :: mandG a
  | .rep (_ + 1) _ a => mandG a
  | _ => []

/-- All capture groups occurring in `re`, with their bodies. -/
def groupsOf : RE → List (Nat × RE)
  | .seq a b => groupsOf a ++ groupsOf b
  | .alt a b => groupsOf a ++ groupsOf b
  | .opt a => groupsOf a
  | .star a => groupsOf a
  | .rep _ _ a => groupsOf a
  | .group i a => (i, a) :: groupsOf a
  | _ => []

/-- `v` is a string that `re` can match exactly (i.e. some match of `re`
consumes precisely `v` from the front of some input).  Captured group values
are always of this form for the group's body. -/
def ConsumesTo (re : RE) (v : List Char) : Prop :=
  ∃ fuel rest g r2, (r2, rest) ∈ mAll fuel re (v ++ rest) g

/-!
## Generator for Claim C7: strings of the shape
`[$]<digits with optional comma groups>[.digits] (million|billion)`
-/

/-- The textual fraction part corresponding to an optional fraction digit
string: `".f"` or nothing. -/
def dotFrac : Option (List Char) → List Char
  | some f => '.' :: f
  | none => []

/-- `"[$]d1[,g]*[.f] million|billion"` as a char list. -/
def mkAmount (dol : Bool) (d1 : List Char) (gs : List (List Char))
    (frac : Option (List Char)) (mil : Bool) : List Char :=
  (if dol then ['$'] else []) ++ d1 ++ gs.flatMap (fun g => ',' :: g) ++
    dotFrac frac ++ [' '] ++ (if mil then millionL else billionL)

/-- Exact value of a decimal literal `intD[.frac]`. -/
def decValue (intD : List Char) (frac : Option (List Char)) : ℚ :=
  (natOfDigits intD : ℚ) +
    (match frac with
     | some f => (natOfDigits f : ℚ) / (10 : ℚ) ^ f.length
     | none => 0)

/-!
## Concrete scenario claims
-/

/-- C1 counterexample: on `"Capex must not exceed $30 billion over 5
years."` the budget record's type is `"fixed"`, not `"max"` as claimed:
none of the upper-bound cues of the pattern (`under`, `below`, `maximum
of`, `up to`, `not exceeding`, `≤`, `less than`) occurs in the prompt —
the prompt says "not exceed", the cue is "not exceeding" — so the bare
third alternative matches, and `upper_bound` is `None`, not 3.0e10. -/
theorem c1_counterexample :
    (parse_constraints "Capex must not exceed $30 billion over 5 years.".toList =
      .ok { word_count := none
            budget := some { ctype := "fixed", target := some (.float 30000000000),
                             lower_bound := some none, upper_bound := some none,
                             raw_value := some "30 billion".toList }
            percentage := none
            timeframe := some { ctype := "fixed", target := some (.int 5),
                                unit := some "years".toList } }) ∧
    ("fixed" : String) ≠ "max" := by
  exact ⟨by decide, by decide⟩

/-- C1 (corrected): for the prompt `"Capex must not exceed $30 billion over
5 years."`, `parse_constraints` returns a budget record with type
`"fixed"`, target 3.0e10, `upper_bound` `None`, `lower_bound` `None` and
`raw_value` `"30 billion"`, together with a timeframe record with type
`"fixed"`, unit `"years"` and target 5. -/
theorem c1_budget_fixed_timeframe_years :
    parse_constraints "Capex must not exceed $30 billion over 5 years.".toList =
      .ok { word_count := none
            budget := some { ctype := "fixed", target := some (.float 30000000000),
                             lower_bound := some none, upper_bound := some none,
                             raw_value := some "30 billion".toList }
            percentage := none
            timeframe := some { ctype := "fixed", target := some (.int 5),
                                unit := some "years".toList } } := by
  decide

/-- C2 counterexample: on `"Write exactly 150 words."` the word-count
tolerance computed by the source is `max(10, round(0.1·150)) = 15`, not 10
as the claim states, so the bounds are 135/165, not 140/160. -/
theorem c2_counterexample :
    (parse_constraints "Write exactly 150 words.".toList =
      .ok { word_count := some { ctype := "fixed", target := some (.int 150),
                                 lower_bound := some (some (.int 135)),
                                 upper_bound := some (some (.int 165)),
                                 tolerance := some (.int 15) } }) ∧
    PyNum.int 15 ≠ PyNum.int 10 := by
  exact ⟨by decide, by decide⟩

/-- C2 (corrected): for the prompt `"Write exactly 150 words."`,
`parse_constraints` returns a word-count record with type `"fixed"`,
target 150, lower_bound 135, upper_bound 165 and tolerance 15. -/
theorem c2_word_count_150 :
    parse_constraints "Write exactly 150 words.".toList =
      .ok { word_count := some { ctype := "fixed", target := some (.int 150),
                                 lower_bound := some (some (.int 135)),
                                 upper_bound := some (some (.int 165)),
                                 tolerance := some (.int 15) } } := by
  decide

/-- C6 (code bug): the word-count number pattern is `\d{2,4}` — it does not
admit comma separators, although the code's own comment says "allow
commas" and the code strips commas from the captured text.  On
`"Write 2,000 words."` the pattern can only match the digit run `"000"`
inside `"2,000"`, so the record's target is 0 (with bounds −10/10), not
2000. -/
theorem c6_comma_word_count :
    parse_constraints "Write 2,000 words.".toList =
      .ok { word_count := some { ctype := "fixed", target := some (.int 0),
                                 lower_bound := some (some (.int (-10))),
                                 upper_bound := some (some (.int 10)),
                                 tolerance := some (.int 10) } } := by
  decide

/-- C3 counterexample: on `"between 3 days and 5 days"` the produced
timeframe range record *does* contain the keys `lower_bound` (= 3) and
`upper_bound` (= 5) — the claim says it contains neither. -/
theorem c3_counterexample :
    (parse_constraints "between 3 days and 5 days".toList =
      .ok { timeframe := some { ctype := "range", unit := some "days".toList,
                                lower_bound := some (some (.int 3)),
                                upper_bound := some (some (.int 5)),
                                target := some (.int 4) } }) ∧
    (some (some (PyNum.int 3)) : Option (Option PyNum)) ≠ none := by
  exact ⟨by decide, by decide⟩

/-- C4 counterexample: the patterns do not require the matched low value to
be at most the high value.  On `"between 500 and 100 words"` the word-count
range record has `lower_bound` 500, target 300 and `upper_bound` 100, so
`lower_bound ≤ target` fails (the percentage search also matches here, with
the same inverted bounds). -/
theorem c4_counterexample :
    (parse_constraints "between 500 and 100 words".toList =
      .ok { word_count := some { ctype := "range",
                                 lower_bound := some (some (.int 500)),
                                 upper_bound := some (some (.int 100)),
                                 target := some (.int 300),
                                 tolerance := some (.int (-200)) }
            percentage := some { ctype := "range",
                                 lower_bound := some (some (.float 500)),
                                 upper_bound := some (some (.float 100)),
                                 target := some (.float 300),
                                 tolerance := some (.float (-200)) } }) ∧
    ¬ ((500 : ℤ) ≤ 300) := by
  exact ⟨by decide, by decide⟩

/-- C5 counterexample: the percent marker after the high value of the
percentage range shape is optional (`(?:%|percent)?`), not required.  The
prompt `"between 45 and 55"` contains no `%` and no `"percent"` at all,
yet the percentage range shape matches it. -/
theorem c5_counterexample :
    (parse_constraints "between 45 and 55".toList =
      .ok { percentage := some { ctype := "range",
                                 lower_bound := some (some (.float 45)),
                                 upper_bound := some (some (.float 55)),
                                 target := some (.float 50),
                                 tolerance := some (.float 5) } }) ∧
    (∀ c ∈ "between 45 and 55".toList, c ≠ '%') ∧
    hasSubstr "percent".toList "between 45 and 55".toList = false := by
  exact ⟨by decide, by decide, by decide⟩

/-!
## Inversion lemmas for the produced records
-/

/-- A successful `parse_constraints` run is exactly the four blocks
succeeding. -/
theorem parse_constraints_blocks {p : List Char} {cs : ConstraintSet}
    (h : parse_constraints p = .ok cs) :
    wordCountBlock p = .ok cs.word_count ∧ budgetBlock p = .ok cs.budget ∧
      percentBlock p = .ok cs.percentage ∧ timeBlock p = cs.timeframe := by
  unfold parse_constraints at h
  rcases hw : wordCountBlock p with u | w <;> rw [hw] at h
  · simp at h
  rcases hb : budgetBlock p with u | b <;> rw [hb] at h
  · simp at h
  rcases hp : percentBlock p with u | pc <;> rw [hp] at h
  · simp at h
  simp only [Except.ok.injEq] at h
  subst h
  exact ⟨rfl, rfl, rfl, rfl⟩

/-- Any range-type word-count record stores the two matched numbers as its
bounds, the floor midpoint as target, and the floor half-width as
tolerance. -/
theorem wordCount_range_inv {p : List Char} {r : CRecord}
    (h : wordCountBlock p = .ok (some r)) (hty : r.ctype = "range") :
    ∃ lo hi : ℤ, r.lower_bound = some (some (.int lo)) ∧
      r.upper_bound = some (some (.int hi)) ∧
      r.target = some (.int ((lo + hi).fdiv 2)) ∧
      r.tolerance = some (.int ((hi - lo).fdiv 2)) := by
  unfold wordCountBlock at h
  split at h
  · simp at h
  · split at h
    · simp only [Except.ok.injEq, Option.some.injEq] at h
      subst h
      exact ⟨_, _, rfl, rfl, rfl, rfl⟩
    · split at h
      · simp at h
      · simp only [Except.ok.injEq, Option.some.injEq] at h
        subst h
        simp at hty

/-- Any range-type percentage record stores the two matched numbers as its
bounds, their exact mean as target, and the exact half-width as
tolerance. -/
theorem percent_range_inv {p : List Char} {r : CRecord}
    (h : percentBlock p = .ok (some r)) (hty : r.ctype = "range") :
    ∃ lo hi : ℚ, r.lower_bound = some (some (.float lo)) ∧
      r.upper_bound = some (some (.float hi)) ∧
      r.target = some (.float ((lo + hi) / 2)) ∧
      r.tolerance = some (.float ((hi - lo) / 2)) := by
  unfold percentBlock at h
  split at h
  · simp at h
  · split at h
    · split at h
      · simp only [Except.ok.injEq, Option.some.injEq] at h
        subst h
        exact ⟨_, _, rfl, rfl, rfl, rfl⟩
      · simp at h
    · split at h
      · simp at h
      · split at h
        · simp at h
        · simp only [Except.ok.injEq, Option.some.injEq] at h
          subst h
          simp at hty

/-- Any range-type timeframe record stores the two matched numbers as its
bounds and the floor midpoint as target, and has no tolerance key. -/
theorem time_range_inv {p : List Char} {r : CRecord}
    (h : timeBlock p = some r) (hty : r.ctype = "range") :
    ∃ lo hi : ℤ, r.lower_bound = some (some (.int lo)) ∧
      r.upper_bound = some (some (.int hi)) ∧
      r.target = some (.int ((lo + hi).fdiv 2)) ∧
      r.tolerance = none := by
  unfold timeBlock at h
  split at h
  · simp at h
  · split at h
    · simp only [Option.some.injEq] at h
      subst h
      exact ⟨_, _, rfl, rfl, rfl, rfl⟩
    · simp only [Option.some.injEq] at h
      subst h
      simp at hty

/-- C3 (corrected): for every prompt whose timeframe search matches the
range shape, the produced timeframe record has target `(low + high) // 2`
(integer floor division, on the stored bounds) and contains no `tolerance`
field — but it *does* contain `lower_bound` and `upper_bound` keys (source
lines 140–146), contrary to the claim. -/
theorem c3_timeframe_range_fields (prompt : List Char) (cs : ConstraintSet)
    (r : CRecord) (h : parse_constraints prompt = .ok cs)
    (hr : cs.timeframe = some r) (hty : r.ctype = "range") :
    (∃ lo hi : ℤ, r.lower_bound = some (some (.int lo)) ∧
      r.upper_bound = some (some (.int hi)) ∧
      r.target = some (.int ((lo + hi).fdiv 2))) ∧
    r.tolerance = none := by
  obtain ⟨-, -, -, ht⟩ := parse_constraints_blocks h
  rw [hr] at ht
  obtain ⟨lo, hi, h1, h2, h3, h4⟩ := time_range_inv ht hty
  exact ⟨⟨lo, hi, h1, h2, h3⟩, h4⟩

/-- C3 witness: the theorem applied to the prompt
`"between 3 days and 5 days"`, whose timeframe record is
`{type: range, unit: "days", lower_bound: 3, upper_bound: 5, target: 4}`. -/
theorem c3_witness :
    (∃ lo hi : ℤ,
      (some (some (PyNum.int 3)) : Option (Option PyNum)) = some (some (.int lo)) ∧
      (some (some (PyNum.int 5)) : Option (Option PyNum)) = some (some (.int hi)) ∧
      (some (PyNum.int 4) : Option PyNum) = some (.int ((lo + hi).fdiv 2))) ∧
    (none : Option PyNum) = none :=
  c3_timeframe_range_fields "between 3 days and 5 days".toList
    { timeframe := some { ctype := "range", unit := some "days".toList,
                          lower_bound := some (some (.int 3)),
                          upper_bound := some (some (.int 5)),
                          target := some (.int 4) } }
    { ctype := "range", unit := some "days".toList,
      lower_bound := some (some (.int 3)),
      upper_bound := some (some (.int 5)),
      target := some (.int 4) }
    (by decide) rfl rfl

/-- C4 (corrected): for every prompt and every range-type record produced
by `parse_constraints`, the target is the arithmetic midpoint of the two
matched numbers (integer floor division for word-count and timeframe,
exact/float division for percentage); and *provided the matched low is at
most the matched high* (which the patterns do not enforce),
`lower_bound ≤ target ≤ upper_bound` holds. -/
theorem c4_range_bounds_midpoint (prompt : List Char) (cs : ConstraintSet)
    (h : parse_constraints prompt = .ok cs) :
    (∀ r, cs.word_count = some r → r.ctype = "range" →
      ∀ lo hi : ℤ, r.lower_bound = some (some (.int lo)) →
        r.upper_bound = some (some (.int hi)) →
        r.target = some (.int ((lo + hi).fdiv 2)) ∧
        (lo ≤ hi → lo ≤ (lo + hi).fdiv 2 ∧ (lo + hi).fdiv 2 ≤ hi)) ∧
    (∀ r, cs.percentage = some r → r.ctype = "range" →
      ∀ lo hi : ℚ, r.lower_bound = some (some (.float lo)) →
        r.upper_bound = some (some (.float hi)) →
        r.target = some (.float ((lo + hi) / 2)) ∧
        (lo ≤ hi → lo ≤ (lo + hi) / 2 ∧ (lo + hi) / 2 ≤ hi)) ∧
    (∀ r, cs.timeframe = some r → r.ctype = "range" →
      ∀ lo hi : ℤ, r.lower_bound = some (some (.int lo)) →
        r.upper_bound = some (some (.int hi)) →
        r.target = some (.int ((lo + hi).fdiv 2)) ∧
        (lo ≤ hi → lo ≤ (lo + hi).fdiv 2 ∧ (lo + hi).fdiv 2 ≤ hi)) := by
  obtain ⟨hw, -, hp, ht⟩ := parse_constraints_blocks h
  refine ⟨?_, ?_, ?_⟩
  · intro r hr hty lo hi hlo hhi
    rw [hr] at hw
    obtain ⟨lo', hi', h1, h2, h3, -⟩ := wordCount_range_inv hw hty
    rw [hlo] at h1
    rw [hhi] at h2
    simp only [Option.some.injEq, PyNum.int.injEq] at h1 h2
    subst h1
    subst h2
    refine ⟨h3, fun hle => ?_⟩
    rw [Int.fdiv_eq_ediv _ (by norm_num)]
    omega
  · intro r hr hty lo hi hlo hhi
    rw [hr] at hp
    obtain ⟨lo', hi', h1, h2, h3, -⟩ := percent_range_inv hp hty
    rw [hlo] at h1
    rw [hhi] at h2
    simp only [Option.some.injEq, PyNum.float.injEq] at h1 h2
    subst h1
    subst h2
    refine ⟨h3, fun hle => ⟨by linarith, by linarith⟩⟩
  · intro r hr hty lo hi hlo hhi
    rw [hr] at ht
    obtain ⟨lo', hi', h1, h2, h3, -⟩ := time_range_inv ht hty
    rw [hlo] at h1
    rw [hhi] at h2
    simp only [Option.some.injEq, PyNum.int.injEq] at h1 h2
    subst h1
    subst h2
    refine ⟨h3, fun hle => ?_⟩
    rw [Int.fdiv_eq_ediv _ (by norm_num)]
    omega

/-- C4 witness: the word-count component of the theorem applied to
`"between 100 and 200 words"` (range record lower 100, upper 200,
target 150). -/
theorem c4_witness :
    (some (PyNum.int 150) : Option PyNum) = some (.int (((100 : ℤ) + 200).fdiv 2)) ∧
    ((100 : ℤ) ≤ 200 → (100 : ℤ) ≤ ((100 : ℤ) + 200).fdiv 2 ∧
      ((100 : ℤ) + 200).fdiv 2 ≤ 200) :=
  (c4_range_bounds_midpoint "between 100 and 200 words".toList
    { word_count := some { ctype := "range",
                           lower_bound := some (some (.int 100)),
                           upper_bound := some (some (.int 200)),
                           target := some (.int 150),
                           tolerance := some (.int 50) }
      percentage := some { ctype := "range",
                           lower_bound := some (some (.float 100)),
                           upper_bound := some (some (.float 200)),
                           target := some (.float 150),
                           tolerance := some (.float 50) } }
    (by decide)).1
    { ctype := "range",
      lower_bound := some (some (.int 100)),
      upper_bound := some (some (.int 200)),
      target := some (.int 150),
      tolerance := some (.int 50) }
    rfl rfl 100 200 rfl rfl

/-- C5 (corrected): the percent markers of the percentage range shape are
optional after *both* the low and the high value (`(?:%|percent)?`), so the
shape also matches with no marker at all; on any range match the record's
target is the exact arithmetic mean of the stored bounds and its tolerance
is `(high − low) / 2`. -/
theorem c5_percentage_range_mean :
    (∀ (prompt : List Char) (cs : ConstraintSet) (r : CRecord),
      parse_constraints prompt = .ok cs → cs.percentage = some r →
      r.ctype = "range" →
      ∀ lo hi : ℚ, r.lower_bound = some (some (.float lo)) →
        r.upper_bound = some (some (.float hi)) →
        r.target = some (.float ((lo + hi) / 2)) ∧
        r.tolerance = some (.float ((hi - lo) / 2))) ∧
    (∃ cs : ConstraintSet,
      parse_constraints "between 45 and 55".toList = .ok cs ∧
      ∃ r, cs.percentage = some r ∧ r.ctype = "range") := by
  constructor
  · intro prompt cs r h hr hty lo hi hlo hhi
    obtain ⟨-, -, hp, -⟩ := parse_constraints_blocks h
    rw [hr] at hp
    obtain ⟨lo', hi', h1, h2, h3, h4⟩ := percent_range_inv hp hty
    rw [hlo] at h1
    rw [hhi] at h2
    simp only [Option.some.injEq, PyNum.float.injEq] at h1 h2
    subst h1
    subst h2
    exact ⟨h3, h4⟩
  · refine ⟨{ percentage := some { ctype := "range",
                                   lower_bound := some (some (.float 45)),
                                   upper_bound := some (some (.float 55)),
                                   target := some (.float 50),
                                   tolerance := some (.float 5) } },
      by decide, _, rfl, rfl⟩

/-- C5 witness: the general component of the theorem applied to
`"between 45 and 55"` (range record 45–55, target 50, tolerance 5). -/
theorem c5_witness :
    (some (PyNum.float 50) : Option PyNum) = some (.float (((45 : ℚ) + 55) / 2)) ∧
    (some (PyNum.float 5) : Option PyNum) = some (.float (((55 : ℚ) - 45) / 2)) :=
  c5_percentage_range_mean.1 "between 45 and 55".toList
    { percentage := some { ctype := "range",
                           lower_bound := some (some (.float 45)),
                           upper_bound := some (some (.float 55)),
                           target := some (.float 50),
                           tolerance := some (.float 5) } }
    { ctype := "range",
      lower_bound := some (some (.float 45)),
      upper_bound := some (some (.float 55)),
      target := some (.float 50),
      tolerance := some (.float 5) }
    (by decide) rfl rfl 45 55 rfl rfl

/-!
## Claim C8: error modes of `parse_amount`
-/

/-- C8 (confirmed): `parse_amount` returns `None` for every input that is
neither numeric nor a string (source line 20–21), and for a string input
whose remainder — after stripping the currency symbol, commas, whitespace
and a million/billion word — is not a valid float literal, the
`float(...)` fault propagates uncaught to the caller (source line 32; there
is no `try` in the function). -/
theorem c8_parse_amount_error_modes :
    parse_amount .other = .ok none ∧
    ∀ s : List Char, pyFloat? (amountRemainder s) = none →
      parse_amount (.str s) = .error () := by
  refine ⟨rfl, fun s h => ?_⟩
  show (parse_amount_str s).map some = .error ()
  unfold parse_amount_str
  rw [h]
  rfl

/-- C8 witness: `"abc"` cleans to `"abc"`, which is not a float literal, and
`parse_amount` indeed propagates the fault on it. -/
theorem c8_witness :
    pyFloat? (amountRemainder "abc".toList) = none ∧
    parse_amount (.str "abc".toList) = .error () :=
  ⟨by decide, c8_parse_amount_error_modes.2 "abc".toList (by decide)⟩

/-!
## Engine meta-lemmas
-/

/-- A literal match consumes a prefix. -/
theorem matchLit_split {l s rest : List Char} (h : matchLit l s = some rest) :
    ∃ pre, s = pre ++ rest := by
  induction l generalizing s with
  | nil =>
    simp only [matchLit, Option.some.injEq] at h
    exact ⟨[], by simp [h]⟩
  | cons a as ih =>
    cases s with
    | nil => simp [matchLit] at h
    | cons c cs =>
      simp only [matchLit] at h
      split at h
      · obtain ⟨pre, hpre⟩ := ih h
        exact ⟨c :: pre, by rw [hpre]; rfl⟩
      · simp at h

/-- Every match result's rest is a suffix of the input: the match consumed
the prefix `pre`. -/
theorem mAll_split {fuel : Nat} {re : RE} {s : List Char} {g : Groups}
    {r : Groups × List Char} (hr : r ∈ mAll fuel re s g) :
    ∃ pre, s = pre ++ r.2 := by
  induction fuel generalizing re s g r with
  | zero => simp [mAll] at hr
  | succ fuel ih =>
    cases re with
    | lit l =>
      simp only [mAll] at hr
      rcases hml : matchLit l s with _ | rest <;> rw [hml] at hr
      · simp at hr
      · simp only [List.mem_singleton] at hr
        subst hr
        exact matchLit_split hml
    | digit =>
      cases s with
      | nil => simp [mAll] at hr
      | cons c cs =>
        simp only [mAll] at hr
        split at hr
        · simp only [List.mem_singleton] at hr
          subst hr
          exact ⟨[c], rfl⟩
        · simp at hr
    | space =>
      cases s with
      | nil => simp [mAll] at hr
      | cons c cs =>
        simp only [mAll] at hr
        split at hr
        · simp only [List.mem_singleton] at hr
          subst hr
          exact ⟨[c], rfl⟩
        · simp at hr
    | seq a b =>
      simp only [mAll, List.mem_flatMap] at hr
      obtain ⟨r1, hr1, hrb⟩ := hr
      obtain ⟨p1, hp1⟩ := ih hr1
      obtain ⟨p2, hp2⟩ := ih hrb
      exact ⟨p1 ++ p2, by rw [hp1, hp2, List.append_assoc]⟩
    | alt a b =>
      simp only [mAll, List.mem_append] at hr
      rcases hr with hr | hr
      · exact ih hr
      · exact ih hr
    | opt a =>
      simp only [mAll, List.mem_append, List.mem_singleton] at hr
      rcases hr with hr | hr
      · exact ih hr
      · subst hr
        exact ⟨[], rfl⟩
    | star a =>
      simp only [mAll, List.mem_append, List.mem_flatMap, List.mem_filter,
        List.mem_singleton] at hr
      rcases hr with ⟨r1, ⟨hr1, -⟩, hrs⟩ | hr
      · obtain ⟨p1, hp1⟩ := ih hr1
        obtain ⟨p2, hp2⟩ := ih hrs
        exact ⟨p1 ++ p2, by rw [hp1, hp2, List.append_assoc]⟩
      · subst hr
        exact ⟨[], rfl⟩
    | rep m e a =>
      match m, e with
      | 0, 0 =>
        simp only [mAll, List.mem_singleton] at hr
        subst hr
        exact ⟨[], rfl⟩
      | 0, e + 1 =>
        simp only [mAll, List.mem_append, List.mem_flatMap, List.mem_filter,
          List.mem_singleton] at hr
        rcases hr with ⟨r1, ⟨hr1, -⟩, hrs⟩ | hr
        · obtain ⟨p1, hp1⟩ := ih hr1
          obtain ⟨p2, hp2⟩ := ih hrs
          exact ⟨p1 ++ p2, by rw [hp1, hp2, List.append_assoc]⟩
        · subst hr
          exact ⟨[], rfl⟩
      | m + 1, e =>
        simp only [mAll, List.mem_flatMap] at hr
        obtain ⟨r1, hr1, hrb⟩ := hr
        obtain ⟨p1, hp1⟩ := ih hr1
        obtain ⟨p2, hp2⟩ := ih hrb
        exact ⟨p1 ++ p2, by rw [hp1, hp2, List.append_assoc]⟩
    | group i a =>
      simp only [mAll, List.mem_map] at hr
      obtain ⟨r1, hr1, heq⟩ := hr
      obtain ⟨p1, hp1⟩ := ih hr1
      refine ⟨p1, ?_⟩
      rw [hp1]
      have : r.2 = r1.2 := by rw [← heq]
      rw [this]

/-- If `reqDigit re` holds, any successful match read a digit: the input
contains one. -/
theorem mAll_reqDigit {fuel : Nat} {re : RE} {s : List Char} {g : Groups}
    (hreq : reqDigit re = true) (hne : mAll fuel re s g ≠ []) :
    ∃ c ∈ s, isDigitChar c = true := by
  induction fuel generalizing re s g with
  | zero => simp [mAll] at hne
  | succ fuel ih =>
    cases re with
    | lit l => simp [reqDigit] at hreq
    | space => simp [reqDigit] at hreq
    | opt a => simp [reqDigit] at hreq
    | star a => simp [reqDigit] at hreq
    | digit =>
      cases s with
      | nil => simp [mAll] at hne
      | cons c cs =>
        simp only [mAll] at hne
        by_cases hd : isDigitChar c = true
        · exact ⟨c, List.mem_cons_self c cs, hd⟩
        · rw [if_neg hd] at hne
          simp at hne
    | seq a b =>
      simp only [reqDigit, Bool.or_eq_true] at hreq
      simp only [mAll, ne_eq, List.flatMap_eq_nil_iff, not_forall] at hne
      obtain ⟨r1, hr1, hb⟩ := hne
      rcases hreq with hra | hrb
      · exact ih hra (List.ne_nil_of_mem hr1)
      · obtain ⟨c, hc, hcd⟩ := ih hrb hb
        obtain ⟨pre, hpre⟩ := mAll_split hr1
        exact ⟨c, by rw [hpre]; exact List.mem_append_right _ hc, hcd⟩
    | alt a b =>
      simp only [reqDigit, Bool.and_eq_true] at hreq
      simp only [mAll, ne_eq, List.append_eq_nil, not_and_or] at hne
      rcases hne with hne | hne
      · exact ih hreq.1 hne
      · exact ih hreq.2 hne
    | rep m e a =>
      match m with
      | 0 => simp [reqDigit] at hreq
      | m + 1 =>
        simp only [reqDigit, Bool.and_eq_true, decide_eq_true_eq] at hreq
        simp only [mAll, ne_eq, List.flatMap_eq_nil_iff, not_forall] at hne
        obtain ⟨r1, hr1, -⟩ := hne
        exact ih hreq.2 (List.ne_nil_of_mem hr1)
    | group i a =>
      simp only [reqDigit] at hreq
      simp only [mAll, ne_eq, List.map_eq_nil_iff] at hne
      exact ih hreq hne

/-- A digit-requiring pattern finds no match in digit-free text. -/
theorem searchRE_none_of_noDigit {re : RE} (hreq : reqDigit re = true) :
    ∀ s : List Char, (∀ c ∈ s, isDigitChar c = false) → searchRE re s = none := by
  intro s
  induction s with
  | nil =>
    intro hnd
    rcases hm : mAll (fuelFor re []) re [] [] with _ | ⟨r, rest⟩
    · simp [searchRE, hm]
    · obtain ⟨c, hc, -⟩ := mAll_reqDigit hreq (hm ▸ List.cons_ne_nil r rest)
      simp at hc
  | cons c cs ih =>
    intro hnd
    rcases hm : mAll (fuelFor re (c :: cs)) re (c :: cs) [] with _ | ⟨r, rest⟩
    · simp only [searchRE, hm]
      exact ih fun d hd => hnd d (List.mem_cons_of_mem c hd)
    · obtain ⟨d, hd, hdd⟩ := mAll_reqDigit hreq (hm ▸ List.cons_ne_nil r rest)
      rw [hnd d hd] at hdd
      simp at hdd

/-!
## Claim C9: digit-free prompts give an empty result
-/

/-- C9 (confirmed): every alternative of each of the four patterns requires
at least one digit, so a prompt with no (ASCII) digit yields an empty
constraint dictionary. -/
theorem c9_no_digits_empty (prompt : List Char)
    (h : ∀ c ∈ prompt, isDigitChar c = false) :
    parse_constraints prompt = .ok { word_count := none, budget := none,
                                     percentage := none, timeframe := none } := by
  have hw : searchRE reWordCount prompt = none :=
    searchRE_none_of_noDigit (by decide) prompt h
  have hb : searchRE reBudget prompt = none :=
    searchRE_none_of_noDigit (by decide) prompt h
  have hp : searchRE rePercent prompt = none :=
    searchRE_none_of_noDigit (by decide) prompt h
  have ht : searchRE reTime prompt = none :=
    searchRE_none_of_noDigit (by decide) prompt h
  unfold parse_constraints wordCountBlock budgetBlock percentBlock timeBlock
  rw [hw, hb, hp, ht]

/-- C9 witness: the digit-free prompt `"hello world."` produces the empty
constraint set. -/
theorem c9_witness :
    parse_constraints "hello world.".toList =
      .ok { word_count := none, budget := none,
            percentage := none, timeframe := none } :=
  c9_no_digits_empty "hello world.".toList (by decide)

/-!
## Character-class and string-helper lemmas
-/

theorem charLower_of_lt {c : Char} (h : c.toNat < 65) : charLower c = c := by
  unfold charLower
  rw [if_neg]
  omega

theorem isDigitChar_toNat {c : Char} (h : isDigitChar c = true) :
    48 ≤ c.toNat ∧ c.toNat ≤ 57 := by
  simpa [isDigitChar] using h

theorem isSpaceChar_toNat {c : Char} (h : isSpaceChar c = true) :
    c.toNat ≤ 32 := by
  simp only [isSpaceChar, Bool.or_eq_true, beq_iff_eq] at h
  omega

/-- The character facts used along the `parse_amount` pipeline, bundled for
digits. -/
theorem digit_char_props {c : Char} (h : isDigitChar c = true) :
    charLower c = c ∧ isSpaceChar c = false ∧ c ≠ ',' ∧ c ≠ '.' ∧ c ≠ '$' ∧
      charLower c ≠ 'm' ∧ charLower c ≠ 'b' := by
  obtain ⟨h1, h2⟩ := isDigitChar_toNat h
  have hcl : charLower c = c := charLower_of_lt (by omega)
  refine ⟨hcl, ?_, ?_, ?_, ?_, ?_, ?_⟩
  · simp only [isSpaceChar, Bool.or_eq_false_iff, beq_eq_false_iff_ne, ne_eq]
    omega
  · intro he
    have : c.toNat = 44 := by rw [he]; rfl
    omega
  · intro he
    have : c.toNat = 46 := by rw [he]; rfl
    omega
  · intro he
    have : c.toNat = 36 := by rw [he]; rfl
    omega
  · rw [hcl]
    intro he
    have : c.toNat = 109 := by rw [he]; rfl
    omega
  · rw [hcl]
    intro he
    have : c.toNat = 98 := by rw [he]; rfl
    omega

theorem charLower_of_space {c : Char} (h : isSpaceChar c = true) :
    charLower c = c :=
  charLower_of_lt (by have := isSpaceChar_toNat h; omega)

theorem dropWhile_eq_self_of_head {p : Char → Bool} {l : List Char}
    (h : ∀ c, l.head? = some c → p c = false) : l.dropWhile p = l := by
  cases l with
  | nil => rfl
  | cons c cs => simp [List.dropWhile_cons, h c rfl]

theorem dropWhile_append_of_all {p : Char → Bool} {l1 l2 : List Char}
    (h : ∀ c ∈ l1, p c = true) : (l1 ++ l2).dropWhile p = l2.dropWhile p := by
  induction l1 with
  | nil => rfl
  | cons c cs ih =>
    simp only [List.cons_append, List.dropWhile_cons, h c (by simp)]
    exact ih fun d hd => h d (List.mem_cons_of_mem c hd)

theorem takeWhile_append_of_all {p : Char → Bool} {l1 l2 : List Char}
    (h : ∀ c ∈ l1, p c = true) : (l1 ++ l2).takeWhile p = l1 ++ l2.takeWhile p := by
  induction l1 with
  | nil => rfl
  | cons c cs ih =>
    simp only [List.cons_append, List.takeWhile_cons, h c (by simp), if_pos]
    rw [ih fun d hd => h d (List.mem_cons_of_mem c hd)]

theorem pyStrip_id_of_ends {l : List Char}
    (hh : ∀ c, l.head? = some c → isSpaceChar c = false)
    (hl : ∀ c, l.getLast? = some c → isSpaceChar c = false) : pyStrip l = l := by
  unfold pyStrip
  rw [dropWhile_eq_self_of_head hh]
  rw [dropWhile_eq_self_of_head (by
    intro c hc
    exact hl c ((List.head?_reverse l) ▸ hc))]
  exact List.reverse_reverse l

theorem pyStrip_id_of_all {l : List Char}
    (h : ∀ c ∈ l, isSpaceChar c = false) : pyStrip l = l :=
  pyStrip_id_of_ends
    (fun c hc => h c (List.mem_of_mem_head? hc))
    (fun c hc => h c (List.mem_of_mem_getLast? hc))

theorem pyLower_id {l : List Char} (h : ∀ c ∈ l, charLower c = c) :
    pyLower l = l := by
  unfold pyLower
  rw [List.map_congr_left h]
  exact List.map_id l

theorem removeChar_id {ch : Char} {l : List Char} (h : ∀ c ∈ l, c ≠ ch) :
    removeChar ch l = l := by
  unfold removeChar
  exact List.filter_eq_self.mpr fun a ha => by simpa using h a ha

theorem startsWith_self_append (w t : List Char) :
    startsWith w (w ++ t) = true := by
  induction w with
  | nil => rfl
  | cons a as ih => simp [startsWith, ih]

theorem hasSubstr_self_append (w t : List Char) :
    hasSubstr w (w ++ t) = true := by
  cases w with
  | nil => cases t <;> simp [hasSubstr, startsWith]
  | cons a as =>
    show hasSubstr (a :: as) ((a :: as) ++ t) = true
    simp only [hasSubstr, Bool.or_eq_true]
    exact Or.inl (by simpa using startsWith_self_append (a :: as) t)

theorem hasSubstr_append_left (x w t : List Char) :
    hasSubstr w (x ++ (w ++ t)) = true := by
  induction x with
  | nil => exact hasSubstr_self_append w t
  | cons c cs ih => simp [hasSubstr, ih]

theorem hasSubstr_eq_false {w0 : Char} {w s : List Char}
    (h : ∀ c ∈ s, c ≠ w0) : hasSubstr (w0 :: w) s = false := by
  induction s with
  | nil => rfl
  | cons c cs ih =>
    have hne : (w0 == c) = false :=
      beq_eq_false_iff_ne.mpr (fun he => h c (by simp) he.symm)
    simp only [hasSubstr, startsWith, hne, Bool.false_and, Bool.false_or]
    exact ih fun d hd => h d (List.mem_cons_of_mem c hd)

theorem matchLit_self (l t : List Char) : matchLit l (l ++ t) = some t := by
  induction l with
  | nil => rfl
  | cons a as ih => simp [matchLit, ih]

theorem subAux_nil (w : List Char) (fuel : Nat) : subAux w fuel [] = [] := by
  cases fuel <;> rfl

/-- `re.sub(r"\s*w", "", ·)` on a string of the shape
`num ++ spaces ++ w` (where `num` contains no whitespace and no character
case-folding to `w`'s first letter) removes exactly the
`spaces ++ w` tail. -/
theorem subAux_removes {w0 : Char} {w : List Char} (hw0 : isSpaceChar w0 = false) :
    ∀ (num : List Char) (fuel : Nat) (sp : List Char),
      (∀ c ∈ num, isSpaceChar c = false ∧ charLower c ≠ charLower w0) →
      (∀ c ∈ sp, isSpaceChar c = true) →
      num.length < fuel →
      subAux (w0 :: w) fuel (num ++ (sp ++ (w0 :: w))) = num := by
  intro num
  induction num with
  | nil =>
    intro fuel sp hnum hsp hf
    cases fuel with
    | zero => omega
    | succ f =>
      have htry : trySpacesWord (w0 :: w) (sp ++ (w0 :: w)) = some [] := by
        unfold trySpacesWord
        rw [dropWhile_append_of_all hsp]
        rw [dropWhile_eq_self_of_head (fun c hc => by
          simp only [List.head?_cons, Option.some.injEq] at hc
          rw [← hc]
          exact hw0)]
        simpa using matchLit_self (w0 :: w) []
      rcases hs : sp ++ (w0 :: w) with _ | ⟨c, rest⟩
      · exact absurd hs (by simp)
      · rw [hs] at htry
        simp only [List.nil_append, hs, subAux, htry]
        exact subAux_nil _ _
  | cons d num' ih =>
    intro fuel sp hnum hsp hf
    cases fuel with
    | zero => simp at hf
    | succ f =>
      obtain ⟨hd1, hd2⟩ := hnum d (by simp)
      have htry : trySpacesWord (w0 :: w) (d :: (num' ++ (sp ++ (w0 :: w)))) = none := by
        unfold trySpacesWord
        rw [dropWhile_eq_self_of_head (fun c hc => by
          simp only [List.head?_cons, Option.some.injEq] at hc
          rw [← hc]
          exact hd1)]
        simp [matchLit, hd2]
      simp only [List.cons_append, subAux, List.append_eq, htry]
      rw [ih f sp (fun c hc => hnum c (List.mem_cons_of_mem d hc)) hsp
        (by simpa using Nat.lt_of_succ_lt_succ hf)]

/-- `subSpacesWord` version of `subAux_removes` (the fuel used by
`subSpacesWord` suffices). -/
theorem subSpacesWord_removes {w0 : Char} {w num sp : List Char}
    (hw0 : isSpaceChar w0 = false)
    (hnum : ∀ c ∈ num, isSpaceChar c = false ∧ charLower c ≠ charLower w0)
    (hsp : ∀ c ∈ sp, isSpaceChar c = true) :
    subSpacesWord (w0 :: w) (num ++ (sp ++ (w0 :: w))) = num := by
  unfold subSpacesWord
  exact subAux_removes hw0 num _ sp hnum hsp (by simp [List.length_append]; omega)

/-!
## `float()` on the literal shapes produced by the patterns
-/

theorem takeWhile_all {p : Char → Bool} {l : List Char}
    (h : ∀ c ∈ l, p c = true) : (l.takeWhile p = l ∧ l.dropWhile p = []) := by
  induction l with
  | nil => exact ⟨rfl, rfl⟩
  | cons c cs ih =>
    have hc := h c (by simp)
    obtain ⟨h1, h2⟩ := ih fun d hd => h d (List.mem_cons_of_mem c hd)
    exact ⟨by simp [List.takeWhile_cons, hc, h1], by simp [List.dropWhile_cons, hc, h2]⟩

/-- `float()` on a plain digit string. -/
theorem floatCore_digits {d : List Char} (hne : d ≠ [])
    (hd : ∀ c ∈ d, isDigitChar c = true) :
    floatCore? d = some (natOfDigits d : ℚ) := by
  obtain ⟨h1, h2⟩ := takeWhile_all hd
  unfold floatCore?
  rw [h1, h2]
  simp [hne]

/-- `float()` on `digits.digits`. -/
theorem floatCore_digits_frac {d f : List Char} (hdne : d ≠ [])
    (hd : ∀ c ∈ d, isDigitChar c = true)
    (hf : ∀ c ∈ f, isDigitChar c = true) :
    floatCore? (d ++ '.' :: f) = some ((natOfDigits d : ℚ) + (natOfDigits f : ℚ) / (10 : ℚ) ^ f.length) := by
  have hdot : isDigitChar '.' = false := by decide
  have h1 : (d ++ '.' :: f).takeWhile isDigitChar = d := by
    rw [takeWhile_append_of_all hd]
    simp [List.takeWhile_cons, hdot]
  have h2 : (d ++ '.' :: f).dropWhile isDigitChar = '.' :: f := by
    rw [dropWhile_append_of_all hd]
    simp [List.dropWhile_cons, hdot]
  obtain ⟨h3, h4⟩ := takeWhile_all hf
  unfold floatCore?
  rw [h1, h2]
  simp only [h3, h4, hdne, false_and, if_false]

/-- Character facts for the numeric text (digits, commas, dots) that flows
through the `parse_amount` pipeline unchanged. -/
theorem numtext_char_props {c : Char} (h : isDigitChar c = true ∨ c = ',' ∨ c = '.') :
    charLower c = c ∧ isSpaceChar c = false ∧ c ≠ '$' ∧
      charLower c ≠ 'm' ∧ charLower c ≠ 'b' := by
  rcases h with h | h | h
  · obtain ⟨h1, h2, -, -, h5, h6, h7⟩ := digit_char_props h
    exact ⟨h1, h2, h5, h6, h7⟩
  · subst h
    exact ⟨by decide, by decide, by decide, by decide, by decide⟩
  · subst h
    exact ⟨by decide, by decide, by decide, by decide, by decide⟩

/-- Character facts for whitespace flowing through the pipeline. -/
theorem space_char_props {c : Char} (h : isSpaceChar c = true) :
    charLower c = c ∧ c ≠ '$' ∧ c ≠ 'm' ∧ c ≠ 'b' := by
  have ht := isSpaceChar_toNat h
  refine ⟨charLower_of_space h, ?_, ?_, ?_⟩
  · intro he
    have : c.toNat = 36 := by rw [he]; rfl
    omega
  · intro he
    have : c.toNat = 109 := by rw [he]; rfl
    omega
  · intro he
    have : c.toNat = 98 := by rw [he]; rfl
    omega

/-- The last character of the (cased) magnitude word is not whitespace. -/
theorem wordCased_last_not_space {W WL : List Char} (hWL : pyLower W = WL)
    (hW : WL = millionL ∨ WL = billionL) :
    ∀ c, W.getLast? = some c → isSpaceChar c = false := by
  intro c hc
  have hmap : WL.getLast? = some (charLower c) := by
    rw [← hWL]
    unfold pyLower
    rw [List.getLast?_map, hc]
    rfl
  have hn : charLower c = 'n' := by
    rcases hW with h | h <;> rw [h] at hmap
    · have h2 : some 'n' = some (charLower c) := by rw [← hmap]; decide
      exact (Option.some.inj h2).symm
    · have h2 : some 'n' = some (charLower c) := by rw [← hmap]; decide
      exact (Option.some.inj h2).symm
  cases hcs : isSpaceChar c
  · rfl
  · have : c = 'n' := by rw [← charLower_of_space hcs, hn]
    rw [this] at hcs
    exact absurd hcs (by decide)

/-- The cased magnitude word is nonempty. -/
theorem wordCased_ne_nil {W WL : List Char} (hWL : pyLower W = WL)
    (hW : WL = millionL ∨ WL = billionL) : W ≠ [] := by
  intro he
  subst he
  rcases hW with h | h <;> (rw [h] at hWL; exact absurd hWL (by decide))

theorem mem_removeChar {ch c : Char} {l : List Char} (h : c ∈ removeChar ch l) :
    c ∈ l ∧ c ≠ ch := by
  unfold removeChar at h
  have := List.mem_filter.mp h
  exact ⟨this.1, by simpa using this.2⟩

theorem map_charLower_id {l : List Char} (h : ∀ c ∈ l, charLower c = c) :
    List.map charLower l = l := by
  rw [List.map_congr_left h]
  exact List.map_id l

theorem pyLower_append (l1 l2 : List Char) :
    pyLower (l1 ++ l2) = pyLower l1 ++ pyLower l2 :=
  List.map_append charLower l1 l2

theorem removeChar_append (ch : Char) (l1 l2 : List Char) :
    removeChar ch (l1 ++ l2) = removeChar ch l1 ++ removeChar ch l2 :=
  List.filter_append _ _

/-- The `float()` model ignores the absent sign on digit-headed input. -/
theorem pyFloat_digitHead {a0 : Char} {t : List Char} (ha0 : isDigitChar a0 = true)
    (hall : ∀ c ∈ a0 :: t, isSpaceChar c = false) :
    pyFloat? (a0 :: t) = floatCore? (a0 :: t) := by
  unfold pyFloat?
  rw [pyStrip_id_of_all hall]
  dsimp only
  split
  · rename_i heq
    have : a0 = '+' := (List.cons.injEq _ _ _ _ ▸ heq).1
    rw [this] at ha0
    exact absurd ha0 (by decide)
  · rename_i heq
    have : a0 = '-' := (List.cons.injEq _ _ _ _ ▸ heq).1
    rw [this] at ha0
    exact absurd ha0 (by decide)
  · rfl

/-- `parse_amount` on any string of the magnitude shape
`[$] <digits/commas> [. digits] <whitespace> (million|billion)` (the word in
any letter case, `WL` its lower-cased form) returns the float value of the
comma-stripped numeric part times the million/billion multiplier. -/
theorem parse_amount_str_of_shape {dp A sp W WL : List Char}
    {frac : Option (List Char)} {a0 : Char} {A' : List Char}
    (hdp : dp = [] ∨ dp = ['$'])
    (hA : A = a0 :: A') (ha0 : isDigitChar a0 = true)
    (hAc : ∀ c ∈ A, isDigitChar c = true ∨ c = ',')
    (hfr : ∀ f, frac = some f → f ≠ [] ∧ ∀ c ∈ f, isDigitChar c = true)
    (hsp : ∀ c ∈ sp, isSpaceChar c = true)
    (hWL : pyLower W = WL) (hW : WL = millionL ∨ WL = billionL) :
    parse_amount_str (dp ++ (A ++ (dotFrac frac ++ (sp ++ W)))) =
      .ok (decValue (removeChar ',' A) frac *
        (if WL = millionL then 1000000 else 1000000000)) := by
  have hWne : W ≠ [] := wordCased_ne_nil hWL hW
  have hAn : ∀ c ∈ A, isDigitChar c = true ∨ c = ',' ∨ c = '.' :=
    fun c hc => (hAc c hc).imp id Or.inl
  have hFc : ∀ c ∈ dotFrac frac, isDigitChar c = true ∨ c = '.' := by
    intro c hc
    cases hfc : frac with
    | none => rw [hfc] at hc; simp [dotFrac] at hc
    | some f =>
      rw [hfc] at hc
      simp only [dotFrac, List.mem_cons] at hc
      rcases hc with rfl | hc
      · exact Or.inr rfl
      · exact Or.inl ((hfr f hfc).2 c hc)
  have hFn : ∀ c ∈ dotFrac frac, isDigitChar c = true ∨ c = ',' ∨ c = '.' :=
    fun c hc => (hFc c hc).imp id Or.inr
  have hFnc : ∀ c ∈ dotFrac frac, c ≠ ',' := by
    intro c hc
    rcases hFc c hc with h | h
    · exact (digit_char_props h).2.2.1
    · subst h; decide
  have hdplow : pyLower dp = dp := by
    rcases hdp with rfl | rfl
    · rfl
    · decide
  have hdprem : removeChar '$' dp = [] := by
    rcases hdp with rfl | rfl
    · rfl
    · decide
  -- Step 1: `strip()` is the identity here.
  have hstrip : pyStrip (dp ++ (A ++ (dotFrac frac ++ (sp ++ W)))) =
      dp ++ (A ++ (dotFrac frac ++ (sp ++ W))) := by
    apply pyStrip_id_of_ends
    · intro c hc
      rcases hdp with rfl | rfl
      · rw [List.nil_append, hA] at hc
        simp only [List.cons_append, List.head?_cons, Option.some.injEq] at hc
        rw [← hc]
        exact (digit_char_props ha0).2.1
      · simp only [List.singleton_append, List.head?_cons, Option.some.injEq] at hc
        rw [← hc]
        decide
    · intro c hc
      rw [show dp ++ (A ++ (dotFrac frac ++ (sp ++ W))) =
        (((dp ++ A) ++ dotFrac frac) ++ sp) ++ W by simp [List.append_assoc]] at hc
      rw [List.getLast?_append_of_ne_nil _ hWne] at hc
      exact wordCased_last_not_space hWL hW c hc
  -- Step 2: `lower()`.
  have hlower : pyLower (dp ++ (A ++ (dotFrac frac ++ (sp ++ W)))) =
      dp ++ (A ++ (dotFrac frac ++ (sp ++ WL))) := by
    rw [pyLower_append, pyLower_append, pyLower_append, pyLower_append]
    rw [hdplow, hWL]
    rw [pyLower_id fun c hc => (numtext_char_props (hAn c hc)).1]
    rw [pyLower_id fun c hc => (numtext_char_props (hFn c hc)).1]
    rw [pyLower_id fun c hc => charLower_of_space (hsp c hc)]
  -- Step 3: `.replace('$', '')`.
  have hdollar : removeChar '$' (dp ++ (A ++ (dotFrac frac ++ (sp ++ WL)))) =
      A ++ (dotFrac frac ++ (sp ++ WL)) := by
    rw [removeChar_append, removeChar_append, removeChar_append, removeChar_append]
    rw [hdprem]
    rw [removeChar_id fun c hc => (numtext_char_props (hAn c hc)).2.2.1]
    rw [removeChar_id fun c hc => (numtext_char_props (hFn c hc)).2.2.1]
    rw [removeChar_id fun c hc => (space_char_props (hsp c hc)).2.1]
    rw [@removeChar_id '$' WL (by rcases hW with rfl | rfl <;> decide)]
    exact List.nil_append _
  have hv1 : removeChar '$' (pyLower (pyStrip (dp ++ (A ++ (dotFrac frac ++ (sp ++ W)))))) =
      A ++ (dotFrac frac ++ (sp ++ WL)) := by
    rw [hstrip, hlower, hdollar]
  -- The numeric core after comma removal.
  have hD : removeChar ',' A = a0 :: removeChar ',' A' := by
    rw [hA]
    unfold removeChar
    rw [List.filter_cons_of_pos (by simpa using (digit_char_props ha0).2.2.1)]
  have hDd : ∀ c ∈ removeChar ',' A, isDigitChar c = true := by
    intro c hc
    obtain ⟨hcA, hcne⟩ := mem_removeChar hc
    rcases hAc c hcA with h | h
    · exact h
    · exact absurd h hcne
  have hremF : removeChar ',' (A ++ dotFrac frac) = removeChar ',' A ++ dotFrac frac := by
    rw [removeChar_append]
    rw [removeChar_id hFnc]
  have hDne : removeChar ',' A ≠ [] := by rw [hD]; simp
  have hnotsp : ∀ c ∈ removeChar ',' A ++ dotFrac frac, isSpaceChar c = false := by
    intro c hc
    rcases List.mem_append.mp hc with hc | hc
    · exact (digit_char_props (hDd c hc)).2.1
    · exact (numtext_char_props (hFn c hc)).2.1
  have hfloat : pyFloat? (removeChar ',' A ++ dotFrac frac) =
      some (decValue (removeChar ',' A) frac) := by
    cases hfc : frac with
    | none =>
      simp only [dotFrac, List.append_nil]
      rw [hD, pyFloat_digitHead ha0 (by
        rw [← hD]
        intro c hc
        exact (digit_char_props (hDd c hc)).2.1), ← hD]
      rw [floatCore_digits hDne hDd]
      simp [decValue]
    | some f =>
      obtain ⟨hfne, hfd⟩ := hfr f hfc
      simp only [dotFrac]
      have hsh : removeChar ',' A ++ '.' :: f = a0 :: (removeChar ',' A' ++ '.' :: f) := by
        rw [hD]
        rfl
      rw [hsh, pyFloat_digitHead ha0 (by
        rw [← hsh]
        intro c hc
        rcases List.mem_append.mp hc with h | h
        · exact (digit_char_props (hDd c h)).2.1
        rcases List.mem_cons.mp h with rfl | h
        · decide
        · exact (digit_char_props (hfd c h)).2.1), ← hsh]
      rw [floatCore_digits_frac hDne hDd hfd]
      simp [decValue]
  rcases hW with rfl | rfl
  · -- the million case
    have hmil : hasSubstr millionL (A ++ (dotFrac frac ++ (sp ++ millionL))) = true := by
      rw [show A ++ (dotFrac frac ++ (sp ++ millionL)) =
        (A ++ (dotFrac frac ++ sp)) ++ (millionL ++ []) by simp [List.append_assoc]]
      exact hasSubstr_append_left _ _ _
    have hsubres : subSpacesWord millionL (A ++ (dotFrac frac ++ (sp ++ millionL))) =
        A ++ dotFrac frac := by
      rw [show A ++ (dotFrac frac ++ (sp ++ millionL)) =
        (A ++ dotFrac frac) ++ (sp ++ millionL) by simp [List.append_assoc]]
      rw [show millionL = 'm' :: ['i', 'l', 'l', 'i', 'o', 'n'] from rfl]
      apply subSpacesWord_removes (by decide) ?_ hsp
      intro c hc
      rcases List.mem_append.mp hc with h | h
      · have hp := numtext_char_props (hAn c h)
        exact ⟨hp.2.1, by rw [show charLower 'm' = 'm' from by decide]; exact hp.2.2.2.1⟩
      · have hp := numtext_char_props (hFn c h)
        exact ⟨hp.2.1, by rw [show charLower 'm' = 'm' from by decide]; exact hp.2.2.2.1⟩
    have hrem : amountRemainder (dp ++ (A ++ (dotFrac frac ++ (sp ++ W)))) =
        removeChar ',' A ++ dotFrac frac := by
      unfold amountRemainder
      dsimp only
      rw [hv1, hmil]
      rw [if_pos rfl]
      rw [hsubres, hremF]
      exact pyStrip_id_of_all hnotsp
    have hmult : amountMult (dp ++ (A ++ (dotFrac frac ++ (sp ++ W)))) = 1000000 := by
      unfold amountMult
      dsimp only
      rw [hv1, hmil]
      rw [if_pos rfl]
    unfold parse_amount_str
    rw [hrem, hmult, hfloat]
    rw [if_pos rfl]
  · -- the billion case
    have hbchars : ∀ c ∈ billionL, c ≠ 'm' := by decide
    have hnomil : hasSubstr millionL (A ++ (dotFrac frac ++ (sp ++ billionL))) = false := by
      rw [show millionL = 'm' :: ['i', 'l', 'l', 'i', 'o', 'n'] from rfl]
      apply hasSubstr_eq_false
      intro c hc
      rcases List.mem_append.mp hc with h | h
      · have hp := numtext_char_props (hAn c h)
        rw [← hp.1]
        exact hp.2.2.2.1
      rcases List.mem_append.mp h with h | h
      · have hp := numtext_char_props (hFn c h)
        rw [← hp.1]
        exact hp.2.2.2.1
      rcases List.mem_append.mp h with h | h
      · exact (space_char_props (hsp c h)).2.2.1
      · exact hbchars c h
    have hbil : hasSubstr billionL (A ++ (dotFrac frac ++ (sp ++ billionL))) = true := by
      rw [show A ++ (dotFrac frac ++ (sp ++ billionL)) =
        (A ++ (dotFrac frac ++ sp)) ++ (billionL ++ []) by simp [List.append_assoc]]
      exact hasSubstr_append_left _ _ _
    have hsubres : subSpacesWord billionL (A ++ (dotFrac frac ++ (sp ++ billionL))) =
        A ++ dotFrac frac := by
      rw [show A ++ (dotFrac frac ++ (sp ++ billionL)) =
        (A ++ dotFrac frac) ++ (sp ++ billionL) by simp [List.append_assoc]]
      rw [show billionL = 'b' :: ['i', 'l', 'l', 'i', 'o', 'n'] from rfl]
      apply subSpacesWord_removes (by decide) ?_ hsp
      intro c hc
      rcases List.mem_append.mp hc with h | h
      · have hp := numtext_char_props (hAn c h)
        exact ⟨hp.2.1, by rw [show charLower 'b' = 'b' from by decide]; exact hp.2.2.2.2⟩
      · have hp := numtext_char_props (hFn c h)
        exact ⟨hp.2.1, by rw [show charLower 'b' = 'b' from by decide]; exact hp.2.2.2.2⟩
    have hrem : amountRemainder (dp ++ (A ++ (dotFrac frac ++ (sp ++ W)))) =
        removeChar ',' A ++ dotFrac frac := by
      unfold amountRemainder
      dsimp only
      rw [hv1, hnomil, hbil]
      rw [if_neg (by simp)]
      rw [if_pos rfl]
      rw [hsubres, hremF]
      exact pyStrip_id_of_all hnotsp
    have hmult : amountMult (dp ++ (A ++ (dotFrac frac ++ (sp ++ W)))) = 1000000000 := by
      unfold amountMult
      dsimp only
      rw [hv1, hnomil, hbil]
      rw [if_neg (by simp)]
      rw [if_pos rfl]
    unfold parse_amount_str
    rw [hrem, hmult, hfloat]
    rw [if_neg (by decide)]

/-- `float()` value of a cleaned numeric literal `D[.f]` with digit core `D`. -/
theorem pyFloat_decValue {D : List Char} {frac : Option (List Char)}
    (hDne : D ≠ []) (hDd : ∀ c ∈ D, isDigitChar c = true)
    (hfr : ∀ f, frac = some f → f ≠ [] ∧ ∀ c ∈ f, isDigitChar c = true) :
    pyFloat? (D ++ dotFrac frac) = some (decValue D frac) := by
  rcases hsh : D with _ | ⟨a0, D'⟩
  · exact absurd hsh hDne
  have ha0 : isDigitChar a0 = true := hDd a0 (by rw [hsh]; simp)
  rw [← hsh]
  cases hfc : frac with
  | none =>
    simp only [dotFrac, List.append_nil]
    rw [hsh, pyFloat_digitHead ha0 (by
      rw [← hsh]
      intro c hc
      exact (digit_char_props (hDd c hc)).2.1), ← hsh]
    rw [floatCore_digits hDne hDd]
    simp [decValue]
  | some f =>
    obtain ⟨hfne, hfd⟩ := hfr f hfc
    simp only [dotFrac]
    have hsh2 : D ++ '.' :: f = a0 :: (D' ++ '.' :: f) := by rw [hsh]; rfl
    rw [hsh2, pyFloat_digitHead ha0 (by
      rw [← hsh2]
      intro c hc
      rcases List.mem_append.mp hc with h | h
      · exact (digit_char_props (hDd c h)).2.1
      rcases List.mem_cons.mp h with rfl | h
      · decide
      · exact (digit_char_props (hfd c h)).2.1), ← hsh2]
    rw [floatCore_digits_frac hDne hDd hfd]
    simp [decValue]

/-- Comma removal turns the comma-group rendering into the joined digits. -/
theorem removeChar_comma_groups (gs : List (List Char))
    (hgs : ∀ g ∈ gs, ∀ c ∈ g, isDigitChar c = true) :
    removeChar ',' (gs.flatMap (fun g => ',' :: g)) = gs.flatMap id := by
  induction gs with
  | nil => rfl
  | cons g gs' ih =>
    simp only [List.flatMap_cons]
    rw [removeChar_append]
    rw [show removeChar ',' (',' :: g) = removeChar ',' g by
      unfold removeChar
      rw [List.filter_cons_of_neg (by simp)]]
    rw [removeChar_id fun c hc => (digit_char_props (hgs g (by simp) c hc)).2.2.1]
    rw [ih fun g' hg' => hgs g' (List.mem_cons_of_mem g hg')]
    rfl

/-- C7 (confirmed): for every string of the form
`[$]<digits with comma groups>[.digits] (million|billion)`,
`parse_amount` returns the float value of the comma-stripped numeric part
multiplied by 1e6 for million or 1e9 for billion. -/
theorem c7_normalize_amount (dol : Bool) (d1 : List Char) (gs : List (List Char))
    (frac : Option (List Char)) (mil : Bool)
    (hd1 : d1 ≠ []) (hd1d : ∀ c ∈ d1, isDigitChar c = true)
    (hgs : ∀ g ∈ gs, g ≠ [] ∧ ∀ c ∈ g, isDigitChar c = true)
    (hfr : ∀ f, frac = some f → f ≠ [] ∧ ∀ c ∈ f, isDigitChar c = true) :
    pyFloat? ((d1 ++ gs.flatMap id) ++ dotFrac frac) =
      some (decValue (d1 ++ gs.flatMap id) frac) ∧
    parse_amount (.str (mkAmount dol d1 gs frac mil)) =
      .ok (some (decValue (d1 ++ gs.flatMap id) frac *
        (if mil then 1000000 else 1000000000))) := by
  have hjd : ∀ c ∈ d1 ++ gs.flatMap id, isDigitChar c = true := by
    intro c hc
    rcases List.mem_append.mp hc with h | h
    · exact hd1d c h
    · obtain ⟨g, hg, hcg⟩ := List.mem_flatMap.mp h
      exact (hgs g hg).2 c hcg
  have hjne : d1 ++ gs.flatMap id ≠ [] := by
    intro he
    exact hd1 (List.append_eq_nil.mp he).1
  constructor
  · exact pyFloat_decValue hjne hjd hfr
  rcases hd : d1 with _ | ⟨a0, d1'⟩
  · exact absurd hd hd1
  rw [← hd]
  have hAsh : d1 ++ gs.flatMap (fun g => ',' :: g) = a0 :: (d1' ++ gs.flatMap (fun g => ',' :: g)) := by
    rw [hd]
    rfl
  have hAc : ∀ c ∈ d1 ++ gs.flatMap (fun g => ',' :: g),
      isDigitChar c = true ∨ c = ',' := by
    intro c hc
    rcases List.mem_append.mp hc with h | h
    · exact Or.inl (hd1d c h)
    · obtain ⟨g, hg, hcg⟩ := List.mem_flatMap.mp h
      rcases List.mem_cons.mp hcg with rfl | hcg
      · exact Or.inr rfl
      · exact Or.inl ((hgs g hg).2 c hcg)
  have hmk : mkAmount dol d1 gs frac mil =
      (if dol then ['$'] else []) ++
        ((d1 ++ gs.flatMap (fun g => ',' :: g)) ++
          (dotFrac frac ++ ([' '] ++ (if mil then millionL else billionL)))) := by
    unfold mkAmount
    simp [List.append_assoc]
  have hshape := @parse_amount_str_of_shape
    (if dol then ['$'] else [])
    (d1 ++ gs.flatMap (fun g => ',' :: g))
    [' ']
    (if mil then millionL else billionL)
    (if mil then millionL else billionL)
    frac _ _
    (by cases dol
        · exact Or.inl rfl
        · exact Or.inr rfl)
    hAsh
    (hd1d a0 (by rw [hd]; simp))
    hAc hfr
    (by intro c hc
        rcases List.mem_cons.mp hc with rfl | hc
        · rfl
        · simp at hc)
    (by cases mil <;> decide)
    (by cases mil
        · exact Or.inr rfl
        · exact Or.inl rfl)
  show (parse_amount_str (mkAmount dol d1 gs frac mil)).map some = _
  rw [hmk, hshape]
  have hrc : removeChar ',' (d1 ++ gs.flatMap (fun g => ',' :: g)) =
      d1 ++ gs.flatMap id := by
    rw [removeChar_append]
    rw [removeChar_id fun c hc => (digit_char_props (hd1d c hc)).2.2.1]
    rw [removeChar_comma_groups gs fun g hg => (hgs g hg).2]
  rw [hrc]
  have hmm : (if (if mil then millionL else billionL) = millionL
      then (1000000 : ℚ) else 1000000000) = if mil then 1000000 else 1000000000 := by
    cases mil
    · rw [if_neg (by decide)]
      rfl
    · rw [if_pos (by decide)]
      rfl
  rw [hmm]
  rfl

/-- C7 witness: `"$1,234.5 million"` normalizes to `1234.5 × 1e6`. -/
theorem c7_witness :
    pyFloat? "1234.5".toList = some ((2469 : ℚ) / 2) ∧
    parse_amount (.str "$1,234.5 million".toList) = .ok (some 1234500000) :=
  c7_normalize_amount true ['1'] [['2', '3', '4']] (some ['5']) true
    (by decide) (by decide)
    (by intro g hg
        rcases List.mem_cons.mp hg with rfl | hg
        · exact ⟨by decide, by decide⟩
        · simp at hg)
    (by intro f hf
        injection hf with h
        subst h
        exact ⟨by decide, by decide⟩)

/-!
## Inversion of the engine (for the budget-parse totality claim)
-/

theorem toNat_ofNat_valid {n : Nat} (h : n.isValidChar) :
    (Char.ofNat n).toNat = n := by
  unfold Char.ofNat
  rw [dif_pos h]
  unfold Char.ofNatAux Char.toNat
  simp [UInt32.toNat]

/-- Characters outside the lowercase-letter range are their own only
`charLower` preimage. -/
theorem charLower_preimage {c d : Char} (hd : d.toNat < 97 ∨ 122 < d.toNat)
    (h : charLower c = d) : c = d := by
  unfold charLower at h
  split at h
  · rename_i hc
    exfalso
    have ht : (Char.ofNat (c.toNat + 32)).toNat = c.toNat + 32 :=
      toNat_ofNat_valid (Or.inl (by omega))
    rw [h] at ht
    omega
  · exact h

theorem matchLit_lower {l s rest : List Char} (h : matchLit l s = some rest) :
    ∃ pre, s = pre ++ rest ∧ pre.map charLower = l.map charLower := by
  induction l generalizing s with
  | nil =>
    simp only [matchLit, Option.some.injEq] at h
    exact ⟨[], by simp [h], rfl⟩
  | cons a as ih =>
    cases s with
    | nil => simp [matchLit] at h
    | cons c cs =>
      simp only [matchLit] at h
      split at h
      · rename_i hcl
        obtain ⟨pre, h1, h2⟩ := ih h
        exact ⟨c :: pre, by rw [h1]; rfl, by simp [h2, hcl]⟩
      · simp at h

theorem mAll_seq_inv {fuel : Nat} {a b : RE} {s : List Char} {g : Groups}
    {r : Groups × List Char} (h : r ∈ mAll fuel (.seq a b) s g) :
    ∃ f r1, fuel = f + 1 ∧ r1 ∈ mAll f a s g ∧ r ∈ mAll f b r1.2 r1.1 := by
  cases fuel with
  | zero => simp [mAll] at h
  | succ f =>
    simp only [mAll, List.mem_flatMap] at h
    obtain ⟨r1, h1, h2⟩ := h
    exact ⟨f, r1, rfl, h1, h2⟩

theorem mAll_alt_inv {fuel : Nat} {a b : RE} {s : List Char} {g : Groups}
    {r : Groups × List Char} (h : r ∈ mAll fuel (.alt a b) s g) :
    ∃ f, fuel = f + 1 ∧ (r ∈ mAll f a s g ∨ r ∈ mAll f b s g) := by
  cases fuel with
  | zero => simp [mAll] at h
  | succ f =>
    simp only [mAll, List.mem_append] at h
    exact ⟨f, rfl, h⟩

theorem mAll_opt_inv {fuel : Nat} {a : RE} {s : List Char} {g : Groups}
    {r : Groups × List Char} (h : r ∈ mAll fuel (.opt a) s g) :
    ∃ f, fuel = f + 1 ∧ (r ∈ mAll f a s g ∨ r = (g, s)) := by
  cases fuel with
  | zero => simp [mAll] at h
  | succ f =>
    simp only [mAll, List.mem_append, List.mem_singleton] at h
    exact ⟨f, rfl, h⟩

theorem mAll_digit_inv {fuel : Nat} {s : List Char} {g : Groups}
    {r : Groups × List Char} (h : r ∈ mAll fuel .digit s g) :
    ∃ c rest, s = c :: rest ∧ isDigitChar c = true ∧ r = (g, rest) := by
  cases fuel with
  | zero => simp [mAll] at h
  | succ f =>
    cases s with
    | nil => simp [mAll] at h
    | cons c cs =>
      simp only [mAll] at h
      split at h
      · simp only [List.mem_singleton] at h
        rename_i hc
        exact ⟨c, cs, rfl, hc, h⟩
      · simp at h

theorem mAll_space_inv {fuel : Nat} {s : List Char} {g : Groups}
    {r : Groups × List Char} (h : r ∈ mAll fuel .space s g) :
    ∃ c rest, s = c :: rest ∧ isSpaceChar c = true ∧ r = (g, rest) := by
  cases fuel with
  | zero => simp [mAll] at h
  | succ f =>
    cases s with
    | nil => simp [mAll] at h
    | cons c cs =>
      simp only [mAll] at h
      split at h
      · simp only [List.mem_singleton] at h
        rename_i hc
        exact ⟨c, cs, rfl, hc, h⟩
      · simp at h

theorem mAll_lit_inv {fuel : Nat} {l s : List Char} {g : Groups}
    {r : Groups × List Char} (h : r ∈ mAll fuel (.lit l) s g) :
    ∃ pre, s = pre ++ r.2 ∧ pre.map charLower = l.map charLower ∧ r.1 = g := by
  cases fuel with
  | zero => simp [mAll] at h
  | succ f =>
    simp only [mAll] at h
    rcases hml : matchLit l s with _ | rest <;> rw [hml] at h
    · simp at h
    · simp only [List.mem_singleton] at h
      obtain ⟨pre, h1, h2⟩ := matchLit_lower hml
      subst h
      exact ⟨pre, h1, h2, rfl⟩

theorem mAll_group_inv {fuel : Nat} {i : Nat} {a : RE} {s : List Char}
    {g : Groups} {r : Groups × List Char} (h : r ∈ mAll fuel (.group i a) s g) :
    ∃ f r1 pre, fuel = f + 1 ∧ r1 ∈ mAll f a s g ∧ s = pre ++ r1.2 ∧
      r = ((i, pre) :: r1.1, r1.2) := by
  cases fuel with
  | zero => simp [mAll] at h
  | succ f =>
    simp only [mAll, List.mem_map] at h
    obtain ⟨r1, h1, heq⟩ := h
    obtain ⟨pre, hpre⟩ := mAll_split h1
    have hc : s.take (s.length - r1.2.length) = pre := by
      rw [hpre]
      simp only [List.length_append, Nat.add_sub_cancel]
      exact List.take_left pre r1.2
    rw [hc] at heq
    exact ⟨f, r1, pre, rfl, h1, hpre, heq.symm⟩

/-- A star whose every body match consumes only `P`-characters consumes
only `P`-characters. -/
theorem mAll_star_chars {P : Char → Prop} {a : RE}
    (hbody : ∀ fuel s g r, r ∈ mAll fuel a s g →
      ∃ pre, s = pre ++ r.2 ∧ ∀ c ∈ pre, P c) :
    ∀ fuel (s : List Char) (g : Groups) (r : Groups × List Char),
      r ∈ mAll fuel (.star a) s g → ∃ pre, s = pre ++ r.2 ∧ ∀ c ∈ pre, P c := by
  intro fuel
  induction fuel with
  | zero =>
    intro s g r h
    simp [mAll] at h
  | succ f ih =>
    intro s g r h
    simp only [mAll, List.mem_append, List.mem_flatMap, List.mem_filter,
      List.mem_singleton] at h
    rcases h with ⟨r1, ⟨h1, -⟩, h2⟩ | rfl
    · obtain ⟨p1, hp1, hP1⟩ := hbody f s g r1 h1
      obtain ⟨p2, hp2, hP2⟩ := ih r1.2 r1.1 r h2
      refine ⟨p1 ++ p2, by rw [hp1, hp2, List.append_assoc], ?_⟩
      intro c hc
      rcases List.mem_append.mp hc with hc | hc
      · exact hP1 c hc
      · exact hP2 c hc
    · exact ⟨[], rfl, by simp⟩

/-- `\d{m,m+e}` consumes at least `m` digits and nothing else. -/
theorem mAll_repDigit_chars :
    ∀ (fuel m e : Nat) (s : List Char) (g : Groups) (r : Groups × List Char),
      r ∈ mAll fuel (.rep m e .digit) s g →
      ∃ pre, s = pre ++ r.2 ∧ (∀ c ∈ pre, isDigitChar c = true) ∧ m ≤ pre.length := by
  intro fuel
  induction fuel with
  | zero =>
    intro m e s g r h
    simp [mAll] at h
  | succ f ih =>
    intro m e s g r h
    match m, e with
    | 0, 0 =>
      simp only [mAll, List.mem_singleton] at h
      subst h
      exact ⟨[], rfl, by simp, by simp⟩
    | 0, e + 1 =>
      simp only [mAll, List.mem_append, List.mem_flatMap, List.mem_filter,
        List.mem_singleton] at h
      rcases h with ⟨r1, ⟨h1, -⟩, h2⟩ | rfl
      · obtain ⟨c, rest, hs, hc, hr1⟩ := mAll_digit_inv h1
        subst hr1
        obtain ⟨pre, hp, hd, -⟩ := ih 0 e rest g r h2
        refine ⟨c :: pre, by rw [hs, hp]; rfl, ?_, by simp⟩
        intro d hd2
        rcases List.mem_cons.mp hd2 with rfl | hd2
        · exact hc
        · exact hd d hd2
      · exact ⟨[], rfl, by simp, by simp⟩
    | m + 1, e =>
      simp only [mAll, List.mem_flatMap] at h
      obtain ⟨r1, h1, h2⟩ := h
      obtain ⟨c, rest, hs, hc, hr1⟩ := mAll_digit_inv h1
      subst hr1
      obtain ⟨pre, hp, hd, hlen⟩ := ih m e rest g r h2
      refine ⟨c :: pre, by rw [hs, hp]; rfl, ?_, by simpa using Nat.succ_le_succ hlen⟩
      intro d hd2
      rcases List.mem_cons.mp hd2 with rfl | hd2
      · exact hc
      · exact hd d hd2

/-- Matching only prepends new capture bindings. -/
theorem mAll_groups_ext {fuel : Nat} {re : RE} {s : List Char} {g : Groups}
    {r : Groups × List Char} (h : r ∈ mAll fuel re s g) :
    ∃ new, r.1 = new ++ g := by
  induction fuel generalizing re s g r with
  | zero => simp [mAll] at h
  | succ fuel ih =>
    cases re with
    | lit l =>
      obtain ⟨-, -, -, hg⟩ := mAll_lit_inv h
      exact ⟨[], by rw [hg]; rfl⟩
    | digit =>
      obtain ⟨c, rest, -, -, hr⟩ := mAll_digit_inv h
      exact ⟨[], by rw [hr]; simp⟩
    | space =>
      obtain ⟨c, rest, -, -, hr⟩ := mAll_space_inv h
      exact ⟨[], by rw [hr]; simp⟩
    | seq a b =>
      simp only [mAll, List.mem_flatMap] at h
      obtain ⟨r1, h1, h2⟩ := h
      obtain ⟨n1, hn1⟩ := ih h1
      obtain ⟨n2, hn2⟩ := ih h2
      exact ⟨n2 ++ n1, by rw [hn2, hn1, List.append_assoc]⟩
    | alt a b =>
      simp only [mAll, List.mem_append] at h
      rcases h with h | h
      · exact ih h
      · exact ih h
    | opt a =>
      simp only [mAll, List.mem_append, List.mem_singleton] at h
      rcases h with h | rfl
      · exact ih h
      · exact ⟨[], rfl⟩
    | star a =>
      simp only [mAll, List.mem_append, List.mem_flatMap, List.mem_filter,
        List.mem_singleton] at h
      rcases h with ⟨r1, ⟨h1, -⟩, h2⟩ | rfl
      · obtain ⟨n1, hn1⟩ := ih h1
        obtain ⟨n2, hn2⟩ := ih h2
        exact ⟨n2 ++ n1, by rw [hn2, hn1, List.append_assoc]⟩
      · exact ⟨[], rfl⟩
    | rep m e a =>
      match m, e with
      | 0, 0 =>
        simp only [mAll, List.mem_singleton] at h
        subst h
        exact ⟨[], rfl⟩
      | 0, e + 1 =>
        simp only [mAll, List.mem_append, List.mem_flatMap, List.mem_filter,
          List.mem_singleton] at h
        rcases h with ⟨r1, ⟨h1, -⟩, h2⟩ | rfl
        · obtain ⟨n1, hn1⟩ := ih h1
          obtain ⟨n2, hn2⟩ := ih h2
          exact ⟨n2 ++ n1, by rw [hn2, hn1, List.append_assoc]⟩
        · exact ⟨[], rfl⟩
      | m + 1, e =>
        simp only [mAll, List.mem_flatMap] at h
        obtain ⟨r1, h1, h2⟩ := h
        obtain ⟨n1, hn1⟩ := ih h1
        obtain ⟨n2, hn2⟩ := ih h2
        exact ⟨n2 ++ n1, by rw [hn2, hn1, List.append_assoc]⟩
    | group i a =>
      obtain ⟨f, r1, pre, hf, h1, hpre, hr⟩ := mAll_group_inv h
      obtain rfl : f = fuel := by omega
      obtain ⟨n1, hn1⟩ := ih h1
      exact ⟨(i, pre) :: n1, by rw [hr, hn1]; rfl⟩

theorem lookup_isSome_append {i : Nat} {new g : Groups}
    (h : (List.lookup i g).isSome = true) :
    (List.lookup i (new ++ g)).isSome = true := by
  rw [List.lookup_append]
  cases hn : List.lookup i new with
  | none => simpa [Option.or] using h
  | some v => simp [Option.or]

theorem lookup_isSome_cons {i : Nat} {p : Nat × List Char} {g : Groups}
    (h : (List.lookup i g).isSome = true) :
    (List.lookup i (p :: g)).isSome = true :=
  @lookup_isSome_append i [p] g h

/-- Mandatory groups are bound in every match result. -/
theorem mAll_mand {fuel : Nat} {re : RE} {s : List Char} {g : Groups}
    {r : Groups × List Char} {i : Nat} (hi : i ∈ mandG re)
    (h : r ∈ mAll fuel re s g) : (List.lookup i r.1).isSome = true := by
  induction fuel generalizing re s g r with
  | zero => simp [mAll] at h
  | succ fuel ih =>
    cases re with
    | lit l => simp [mandG] at hi
    | digit => simp [mandG] at hi
    | space => simp [mandG] at hi
    | opt a => simp [mandG] at hi
    | star a => simp [mandG] at hi
    | seq a b =>
      simp only [mAll, List.mem_flatMap] at h
      obtain ⟨r1, h1, h2⟩ := h
      simp only [mandG, List.mem_append] at hi
      rcases hi with hi | hi
      · obtain ⟨new, hnew⟩ := mAll_groups_ext h2
        rw [hnew]
        exact lookup_isSome_append (ih hi h1)
      · exact ih hi h2
    | alt a b =>
      simp only [mAll, List.mem_append] at h
      have hi2 : i ∈ mandG a ∧ i ∈ mandG b := List.mem_inter_iff.mp hi
      rcases h with h | h
      · exact ih hi2.1 h
      · exact ih hi2.2 h
    | rep m e a =>
      match m, e with
      | 0, 0 => simp [mandG] at hi
      | 0, e + 1 => simp [mandG] at hi
      | m + 1, e =>
        simp only [mAll, List.mem_flatMap] at h
        obtain ⟨r1, h1, h2⟩ := h
        simp only [mandG] at hi
        obtain ⟨new, hnew⟩ := mAll_groups_ext h2
        rw [hnew]
        exact lookup_isSome_append (ih hi h1)
    | group j a =>
      obtain ⟨f, r1, pre, hf, h1, hpre, hr⟩ := mAll_group_inv h
      obtain rfl : f = fuel := by omega
      simp only [mandG, List.mem_cons] at hi
      rw [hr]
      rcases hi with rfl | hi
      · simp
      · exact lookup_isSome_cons (ih hi h1)

/-- Every binding in a match result either was there before or is the
capture of one of the pattern's groups, holding a string matched by that
group's body. -/
theorem mAll_bindings {fuel : Nat} {re : RE} {s : List Char} {g : Groups}
    {r : Groups × List Char} (h : r ∈ mAll fuel re s g) :
    ∀ p ∈ r.1, p ∈ g ∨ ∃ body, (p.1, body) ∈ groupsOf re ∧ ConsumesTo body p.2 := by
  induction fuel generalizing re s g r with
  | zero => simp [mAll] at h
  | succ fuel ih =>
    cases re with
    | lit l =>
      obtain ⟨-, -, -, hg⟩ := mAll_lit_inv h
      intro p hp
      rw [hg] at hp
      exact Or.inl hp
    | digit =>
      obtain ⟨c, rest, -, -, hr⟩ := mAll_digit_inv h
      intro p hp
      rw [hr] at hp
      exact Or.inl hp
    | space =>
      obtain ⟨c, rest, -, -, hr⟩ := mAll_space_inv h
      intro p hp
      rw [hr] at hp
      exact Or.inl hp
    | seq a b =>
      simp only [mAll, List.mem_flatMap] at h
      obtain ⟨r1, h1, h2⟩ := h
      intro p hp
      rcases ih h2 p hp with hp2 | ⟨body, hb, hc⟩
      · rcases ih h1 p hp2 with hp1 | ⟨body, hb, hc⟩
        · exact Or.inl hp1
        · exact Or.inr ⟨body, by simp only [groupsOf, List.mem_append]; exact Or.inl hb, hc⟩
      · exact Or.inr ⟨body, by simp only [groupsOf, List.mem_append]; exact Or.inr hb, hc⟩
    | alt a b =>
      simp only [mAll, List.mem_append] at h
      intro p hp
      rcases h with h | h
      · rcases ih h p hp with hp1 | ⟨body, hb, hc⟩
        · exact Or.inl hp1
        · exact Or.inr ⟨body, by simp only [groupsOf, List.mem_append]; exact Or.inl hb, hc⟩
      · rcases ih h p hp with hp1 | ⟨body, hb, hc⟩
        · exact Or.inl hp1
        · exact Or.inr ⟨body, by simp only [groupsOf, List.mem_append]; exact Or.inr hb, hc⟩
    | opt a =>
      simp only [mAll, List.mem_append, List.mem_singleton] at h
      intro p hp
      rcases h with h | rfl
      · exact (ih h p hp).imp id (fun ⟨body, hb, hc⟩ => ⟨body, hb, hc⟩)
      · exact Or.inl hp
    | star a =>
      simp only [mAll, List.mem_append, List.mem_flatMap, List.mem_filter,
        List.mem_singleton] at h
      intro p hp
      rcases h with ⟨r1, ⟨h1, -⟩, h2⟩ | rfl
      · rcases ih h2 p hp with hp2 | ⟨body, hb, hc⟩
        · rcases ih h1 p hp2 with hp1 | ⟨body, hb, hc⟩
          · exact Or.inl hp1
          · exact Or.inr ⟨body, hb, hc⟩
        · exact Or.inr ⟨body, hb, hc⟩
      · exact Or.inl hp
    | rep m e a =>
      match m, e with
      | 0, 0 =>
        simp only [mAll, List.mem_singleton] at h
        subst h
        intro p hp
        exact Or.inl hp
      | 0, e + 1 =>
        simp only [mAll, List.mem_append, List.mem_flatMap, List.mem_filter,
          List.mem_singleton] at h
        intro p hp
        rcases h with ⟨r1, ⟨h1, -⟩, h2⟩ | rfl
        · rcases ih h2 p hp with hp2 | ⟨body, hb, hc⟩
          · rcases ih h1 p hp2 with hp1 | ⟨body, hb, hc⟩
            · exact Or.inl hp1
            · exact Or.inr ⟨body, hb, hc⟩
          · exact Or.inr ⟨body, hb, hc⟩
        · exact Or.inl hp
      | m + 1, e =>
        simp only [mAll, List.mem_flatMap] at h
        obtain ⟨r1, h1, h2⟩ := h
        intro p hp
        rcases ih h2 p hp with hp2 | ⟨body, hb, hc⟩
        · rcases ih h1 p hp2 with hp1 | ⟨body, hb, hc⟩
          · exact Or.inl hp1
          · exact Or.inr ⟨body, hb, hc⟩
        · exact Or.inr ⟨body, hb, hc⟩
    | group j a =>
      obtain ⟨f, r1, pre, hf, h1, hpre, hr⟩ := mAll_group_inv h
      obtain rfl : f = fuel := by omega
      intro p hp
      rw [hr] at hp
      rcases List.mem_cons.mp hp with rfl | hp
      · refine Or.inr ⟨a, by simp [groupsOf], ?_⟩
        refine ⟨f, r1.2, g, r1.1, ?_⟩
        rw [← hpre]
        exact h1
      · rcases ih h1 p hp with hp1 | ⟨body, hb, hc⟩
        · exact Or.inl hp1
        · exact Or.inr ⟨body, by simp only [groupsOf]; exact List.mem_cons_of_mem _ hb, hc⟩

/-- A successful search result is the capture environment of some match of
the pattern at some suffix of the input, started with no bindings. -/
theorem searchRE_inv {re : RE} :
    ∀ {s : List Char} {g : Groups}, searchRE re s = some g →
      ∃ s2 fuel r, r ∈ mAll fuel re s2 [] ∧ r.1 = g := by
  intro s
  induction s with
  | nil =>
    intro g h
    unfold searchRE at h
    rcases hm : mAll (fuelFor re []) re [] [] with _ | ⟨r, rest⟩ <;> rw [hm] at h
    · simp at h
    · simp only [Option.some.injEq] at h
      exact ⟨[], fuelFor re [], r, by rw [hm]; simp, h⟩
  | cons c cs ih =>
    intro g h
    unfold searchRE at h
    rcases hm : mAll (fuelFor re (c :: cs)) re (c :: cs) [] with _ | ⟨r, rest⟩ <;>
      rw [hm] at h
    · exact ih h
    · simp only [Option.some.injEq] at h
      exact ⟨c :: cs, fuelFor re (c :: cs), r, by rw [hm]; simp, h⟩

theorem map_charLower_singleton {p : List Char} {d : Char}
    (hd : d.toNat < 97 ∨ 122 < d.toNat) (h : p.map charLower = [d]) : p = [d] := by
  cases p with
  | nil => simp at h
  | cons c cs =>
    simp only [List.map_cons, List.cons.injEq, List.map_eq_nil_iff] at h
    rw [h.2, charLower_preimage hd h.1]

theorem commaGroup_body_chars :
    ∀ (fuel : Nat) (s : List Char) (g : Groups) (r : Groups × List Char),
      r ∈ mAll fuel (.seq (.lit (",".toList)) (.rep 3 0 .digit)) s g →
      ∃ pre, s = pre ++ r.2 ∧ ∀ c ∈ pre, isDigitChar c = true ∨ c = ',' := by
  intro fuel s g r h
  obtain ⟨f, r1, -, h1, h2⟩ := mAll_seq_inv h
  obtain ⟨p1, hp1, hmap, -⟩ := mAll_lit_inv h1
  obtain ⟨p2, hp2, hd2, -⟩ := mAll_repDigit_chars f 3 0 _ _ _ h2
  have hp1c : p1 = [','] := map_charLower_singleton (by decide) (by simpa using hmap)
  refine ⟨p1 ++ p2, by rw [hp1, hp2, List.append_assoc], ?_⟩
  intro c hc
  rcases List.mem_append.mp hc with hc | hc
  · rw [hp1c] at hc
    simp only [List.mem_singleton] at hc
    exact Or.inr hc
  · exact Or.inl (hd2 c hc)

theorem star_comma_chars {fuel : Nat} {s : List Char} {g : Groups}
    {r : Groups × List Char}
    (h : r ∈ mAll fuel (.star (.seq (.lit (",".toList)) (.rep 3 0 .digit))) s g) :
    ∃ pre, s = pre ++ r.2 ∧ ∀ c ∈ pre, isDigitChar c = true ∨ c = ',' :=
  mAll_star_chars commaGroup_body_chars fuel s g r h

theorem star_space_chars {fuel : Nat} {s : List Char} {g : Groups}
    {r : Groups × List Char} (h : r ∈ mAll fuel (.star .space) s g) :
    ∃ pre, s = pre ++ r.2 ∧ ∀ c ∈ pre, isSpaceChar c = true := by
  refine mAll_star_chars ?_ fuel s g r h
  intro fuel s g r h
  obtain ⟨c, rest, hs, hc, hr⟩ := mAll_space_inv h
  refine ⟨[c], by rw [hs, hr]; rfl, ?_⟩
  intro d hd
  rcases List.mem_singleton.mp hd with rfl
  exact hc

theorem star_digit_chars {fuel : Nat} {s : List Char} {g : Groups}
    {r : Groups × List Char} (h : r ∈ mAll fuel (.star .digit) s g) :
    ∃ pre, s = pre ++ r.2 ∧ ∀ c ∈ pre, isDigitChar c = true := by
  refine mAll_star_chars ?_ fuel s g r h
  intro fuel s g r h
  obtain ⟨c, rest, hs, hc, hr⟩ := mAll_digit_inv h
  refine ⟨[c], by rw [hs, hr]; rfl, ?_⟩
  intro d hd
  rcases List.mem_singleton.mp hd with rfl
  exact hc

theorem opt_frac_shape {fuel : Nat} {s : List Char} {g : Groups}
    {r : Groups × List Char}
    (h : r ∈ mAll fuel (.opt (.seq (.lit (".".toList)) (.seq .digit (.star .digit)))) s g) :
    ∃ frac, s = dotFrac frac ++ r.2 ∧
      ∀ f, frac = some f → f ≠ [] ∧ ∀ c ∈ f, isDigitChar c = true := by
  obtain ⟨f, -, h⟩ := mAll_opt_inv h
  rcases h with h | rfl
  · obtain ⟨f1, r1, -, h1, h2⟩ := mAll_seq_inv h
    obtain ⟨p1, hp1, hmap, -⟩ := mAll_lit_inv h1
    obtain ⟨f2, r2, -, h3, h4⟩ := mAll_seq_inv h2
    obtain ⟨c0, rest0, hr0, hc0, hre⟩ := mAll_digit_inv h3
    obtain ⟨p2, hp2, hd2⟩ := star_digit_chars h4
    have hp1c : p1 = ['.'] := map_charLower_singleton (by decide) (by simpa using hmap)
    rw [hre] at hp2
    simp only at hp2
    refine ⟨some (c0 :: p2), ?_, ?_⟩
    · rw [hp1, hp1c, hr0, hp2]
      simp [dotFrac]
    · intro fd hfd
      injection hfd with hfd
      subst hfd
      constructor
      · simp
      · intro c hc
        rcases List.mem_cons.mp hc with rfl | hc
        · exact hc0
        · exact hd2 c hc
  · exact ⟨none, by simp [dotFrac], by intro f hf; simp at hf⟩

theorem altMB_shape {fuel : Nat} {s : List Char} {g : Groups}
    {r : Groups × List Char}
    (h : r ∈ mAll fuel (.alt (.lit ("million".toList)) (.lit ("billion".toList))) s g) :
    ∃ W, s = W ++ r.2 ∧ (pyLower W = millionL ∨ pyLower W = billionL) := by
  obtain ⟨f, -, h⟩ := mAll_alt_inv h
  rcases h with h | h
  · obtain ⟨pre, hp, hmap, -⟩ := mAll_lit_inv h
    refine ⟨pre, hp, Or.inl ?_⟩
    show pre.map charLower = millionL
    rw [hmap]
    decide
  · obtain ⟨pre, hp, hmap, -⟩ := mAll_lit_inv h
    refine ⟨pre, hp, Or.inr ?_⟩
    show pre.map charLower = billionL
    rw [hmap]
    decide

/-- Any string matched by the budget magnitude sub-pattern parses
successfully in `parse_amount` — the `float()` failure branch is
unreachable for regex-matched budget text. -/
theorem consumesTo_reMag {v : List Char} (h : ConsumesTo reMag v) :
    ∃ q, parse_amount_str v = .ok q := by
  obtain ⟨fuel, rest, g, r2, hm⟩ := h
  unfold reMag rlit reWS at hm
  obtain ⟨f1, rA, -, hA, h1⟩ := mAll_seq_inv hm
  obtain ⟨f2, rS, -, hS, h2⟩ := mAll_seq_inv h1
  obtain ⟨f3, rO, -, hO, h3⟩ := mAll_seq_inv h2
  obtain ⟨f4, rW, -, hW, h4⟩ := mAll_seq_inv h3
  obtain ⟨pA, hpA, hdA, hlenA⟩ := mAll_repDigit_chars f1 1 2 _ _ _ hA
  obtain ⟨pS, hpS, hcS⟩ := star_comma_chars hS
  obtain ⟨frac, hpO, hfr⟩ := opt_frac_shape hO
  obtain ⟨pW, hpW, hsW⟩ := star_space_chars hW
  obtain ⟨W, hpM, hWL⟩ := altMB_shape h4
  have hv : v = pA ++ (pS ++ (dotFrac frac ++ (pW ++ W))) := by
    have hvr : v ++ rest = (pA ++ (pS ++ (dotFrac frac ++ (pW ++ W)))) ++ rest := by
      rw [hpA, hpS, hpO, hpW, hpM]
      simp [List.append_assoc]
    exact List.append_cancel_right hvr
  rcases hpA0 : pA with _ | ⟨a0, pA'⟩
  · rw [hpA0] at hlenA
    simp at hlenA
  have ha0 : isDigitChar a0 = true := hdA a0 (by rw [hpA0]; simp)
  have hshape := @parse_amount_str_of_shape [] (pA ++ pS) pW W
    (pyLower W) frac a0 (pA' ++ pS)
    (Or.inl rfl)
    (by rw [hpA0]; rfl)
    ha0
    (by intro c hc
        rcases List.mem_append.mp hc with hc | hc
        · exact Or.inl (hdA c hc)
        · exact hcS c hc)
    hfr hsW rfl hWL
  refine ⟨decValue (removeChar ',' (pA ++ pS)) frac *
    (if pyLower W = millionL then 1000000 else 1000000000), ?_⟩
  rw [hv]
  rw [show pA ++ (pS ++ (dotFrac frac ++ (pW ++ W))) =
    [] ++ ((pA ++ pS) ++ (dotFrac frac ++ (pW ++ W))) by simp [List.append_assoc]]
  exact hshape

/-- Any string matched by the percentage number sub-pattern is a valid
float literal. -/
theorem consumesTo_rePctNum {v : List Char} (h : ConsumesTo rePctNum v) :
    ∃ q, pyFloat? v = some q := by
  obtain ⟨fuel, rest, g, r2, hm⟩ := h
  unfold rePctNum rlit at hm
  obtain ⟨f1, rA, -, hA, h1⟩ := mAll_seq_inv hm
  obtain ⟨pA, hpA, hdA, hlenA⟩ := mAll_repDigit_chars f1 1 2 _ _ _ hA
  obtain ⟨frac, hpO, hfr⟩ := opt_frac_shape h1
  have hv : v = pA ++ dotFrac frac := by
    have hvr : v ++ rest = (pA ++ dotFrac frac) ++ rest := by
      rw [hpA, hpO]
      simp [List.append_assoc]
    exact List.append_cancel_right hvr
  have hAne : pA ≠ [] := by
    intro he
    rw [he] at hlenA
    simp at hlenA
  rw [hv, pyFloat_decValue hAne hdA hfr]
  exact ⟨_, rfl⟩

theorem mem_of_lookup_eq_some {i : Nat} {v : List Char} {g : Groups}
    (h : List.lookup i g = some v) : (i, v) ∈ g := by
  obtain ⟨l1, l2, hg, -⟩ := List.lookup_eq_some_iff.mp h
  rw [hg]
  exact List.mem_append_right _ (List.mem_cons_self _ _)

theorem orElse_lookup_cases {g : Groups} {v : List Char}
    (h : ((List.lookup 1 g).orElse fun _ =>
      (List.lookup 2 g).orElse fun _ => List.lookup 3 g) = some v) :
    List.lookup 1 g = some v ∨ List.lookup 2 g = some v ∨
      List.lookup 3 g = some v := by
  rcases h1 : List.lookup 1 g with _ | v1
  · rcases h2 : List.lookup 2 g with _ | v2
    · rw [h1, h2] at h
      simp only [Option.orElse] at h
      exact Or.inr (Or.inr h)
    · rw [h1, h2] at h
      simp only [Option.orElse] at h
      exact Or.inr (Or.inl h)
  · rw [h1] at h
    simp only [Option.orElse] at h
    exact Or.inl h

/-- Every captured budget magnitude parses successfully. -/
theorem budget_capture_parses {p : List Char} {g : Groups} {i : Nat}
    {v : List Char} (hs : searchRE reBudget p = some g)
    (hl : List.lookup i g = some v) : ∃ q, parse_amount_str v = .ok q := by
  obtain ⟨s2, fuel, r, hm, hg⟩ := searchRE_inv hs
  have hmem : (i, v) ∈ r.1 := by
    rw [hg]
    exact mem_of_lookup_eq_some hl
  rcases mAll_bindings hm (i, v) hmem with hin | ⟨body, hb, hc⟩
  · simp at hin
  · have hgb : groupsOf reBudget = [(1, reMag), (2, reMag), (3, reMag)] := rfl
    rw [hgb] at hb
    have hbody : body = reMag := by
      simp only [List.mem_cons, List.mem_singleton, Prod.mk.injEq] at hb
      rcases hb with ⟨-, h⟩ | ⟨-, h⟩ | ⟨-, h⟩ | h
      · exact h
      · exact h
      · exact h
      · simp at h
    exact consumesTo_reMag (hbody ▸ hc)

/-- Every captured percentage number is a valid float literal. -/
theorem percent_capture_float {p : List Char} {g : Groups} {i : Nat}
    {v : List Char} (hs : searchRE rePercent p = some g)
    (hl : List.lookup i g = some v) : ∃ q, pyFloat? v = some q := by
  obtain ⟨s2, fuel, r, hm, hg⟩ := searchRE_inv hs
  have hmem : (i, v) ∈ r.1 := by
    rw [hg]
    exact mem_of_lookup_eq_some hl
  rcases mAll_bindings hm (i, v) hmem with hin | ⟨body, hb, hc⟩
  · simp at hin
  · have hgb : groupsOf rePercent = [(1, rePctNum), (2, rePctNum), (3, rePctNum)] := rfl
    rw [hgb] at hb
    have hbody : body = rePctNum := by
      simp only [List.mem_cons, List.mem_singleton, Prod.mk.injEq] at hb
      rcases hb with ⟨-, h⟩ | ⟨-, h⟩ | ⟨-, h⟩ | h
      · exact h
      · exact h
      · exact h
      · simp at h
    exact consumesTo_rePctNum (hbody ▸ hc)

/-- In every word-count search result, either both range groups or the
single-value group are bound. -/
theorem wordCount_groups {p : List Char} {g : Groups}
    (hs : searchRE reWordCount p = some g) :
    ((List.lookup 1 g).isSome = true ∧ (List.lookup 2 g).isSome = true) ∨
      (List.lookup 3 g).isSome = true := by
  obtain ⟨s2, fuel, r, hm, hg⟩ := searchRE_inv hs
  subst hg
  unfold reWordCount at hm
  obtain ⟨f, r1, -, h1, h2⟩ := mAll_seq_inv hm
  obtain ⟨f2, -, halt⟩ := mAll_alt_inv h1
  obtain ⟨new, hnew⟩ := mAll_groups_ext h2
  rcases halt with hA | hB
  · refine Or.inl ⟨?_, ?_⟩
    · rw [hnew]
      exact lookup_isSome_append (mAll_mand (by decide) hA)
    · rw [hnew]
      exact lookup_isSome_append (mAll_mand (by decide) hA)
  · refine Or.inr ?_
    rw [hnew]
    exact lookup_isSome_append (mAll_mand (by decide) hB)

/-- In every percentage search result, either both range groups or the
single-value group are bound. -/
theorem percent_groups {p : List Char} {g : Groups}
    (hs : searchRE rePercent p = some g) :
    ((List.lookup 1 g).isSome = true ∧ (List.lookup 2 g).isSome = true) ∨
      (List.lookup 3 g).isSome = true := by
  obtain ⟨s2, fuel, r, hm, hg⟩ := searchRE_inv hs
  subst hg
  unfold rePercent at hm
  obtain ⟨f, -, halt⟩ := mAll_alt_inv hm
  rcases halt with hA | hB
  · exact Or.inl ⟨mAll_mand (by decide) hA, mAll_mand (by decide) hA⟩
  · exact Or.inr (mAll_mand (by decide) hB)

theorem wordCountBlock_isOk (p : List Char) : ∃ w, wordCountBlock p = .ok w := by
  unfold wordCountBlock
  split
  · exact ⟨none, rfl⟩
  rename_i g hs
  have hgr := wordCount_groups hs
  split
  · exact ⟨_, rfl⟩
  rename_i v1 v2 hno
  split
  · rename_i h3
    rcases hgr with ⟨hg1, hg2⟩ | hg3
    · obtain ⟨w1, hw1⟩ := Option.isSome_iff_exists.mp hg1
      obtain ⟨w2, hw2⟩ := Option.isSome_iff_exists.mp hg2
      exact (hno w1 w2 hw1 hw2).elim
    · rw [h3] at hg3
      simp at hg3
  · exact ⟨_, rfl⟩

theorem percentBlock_isOk (p : List Char) : ∃ pc, percentBlock p = .ok pc := by
  unfold percentBlock
  split
  · exact ⟨none, rfl⟩
  rename_i g hs
  have hgr := percent_groups hs
  split
  · rename_i loS hiS h1 h2
    split
    · exact ⟨_, rfl⟩
    · rename_i hno
      obtain ⟨q1, hq1⟩ := percent_capture_float hs h1
      obtain ⟨q2, hq2⟩ := percent_capture_float hs h2
      exact (hno q1 q2 hq1 hq2).elim
  rename_i v1 v2 hno
  split
  · rename_i h3
    rcases hgr with ⟨hg1, hg2⟩ | hg3
    · obtain ⟨w1, hw1⟩ := Option.isSome_iff_exists.mp hg1
      obtain ⟨w2, hw2⟩ := Option.isSome_iff_exists.mp hg2
      exact (hno w1 w2 hw1 hw2).elim
    · rw [h3] at hg3
      simp at hg3
  · rename_i tS h3
    split
    · rename_i hfl
      obtain ⟨q3, hq3⟩ := percent_capture_float hs h3
      rw [hfl] at hq3
      simp at hq3
    · exact ⟨_, rfl⟩

theorem budgetBlock_isOk (p : List Char) : ∃ b, budgetBlock p = .ok b := by
  unfold budgetBlock
  split
  · exact ⟨none, rfl⟩
  rename_i g hs
  dsimp only
  split
  · exact ⟨_, rfl⟩
  · rename_i rawS hraw
    split
    · rename_i e herr
      obtain ⟨q, hq⟩ : ∃ q, parse_amount_str rawS = .ok q := by
        rcases orElse_lookup_cases hraw with h | h | h
        · exact budget_capture_parses hs h
        · exact budget_capture_parses hs h
        · exact budget_capture_parses hs h
      rw [hq] at herr
      simp at herr
    · exact ⟨_, rfl⟩

/-- C10: every magnitude substring captured by the budget pattern (digits
with optional comma groups and optional decimal fraction followed by a
million/billion suffix) is successfully parsed by `parse_amount` — the
float-conversion failure branch is unreachable for regex-matched budget
input — and consequently `parse_constraints` never raises: it returns
`.ok` on every string prompt. -/
theorem c10_budget_parse_total :
    (∀ (p : List Char) (g : Groups) (v : List Char),
        searchRE reBudget p = some g →
        ((List.lookup 1 g).orElse fun _ =>
          (List.lookup 2 g).orElse fun _ => List.lookup 3 g) = some v →
        ∃ q, parse_amount_str v = .ok q) ∧
    ∀ p : List Char, ∃ cs, parse_constraints p = .ok cs := by
  constructor
  · intro p g v hs hv
    rcases orElse_lookup_cases hv with h | h | h
    · exact budget_capture_parses hs h
    · exact budget_capture_parses hs h
    · exact budget_capture_parses hs h
  · intro p
    obtain ⟨w, hw⟩ := wordCountBlock_isOk p
    obtain ⟨b, hb⟩ := budgetBlock_isOk p
    obtain ⟨pc, hpc⟩ := percentBlock_isOk p
    refine ⟨{ word_count := w, budget := b, percentage := pc,
              timeframe := timeBlock p }, ?_⟩
    unfold parse_constraints
    rw [hw, hb, hpc]

theorem c10_witness :
    (∃ q, parse_amount_str (String.toList "5 million") = .ok q) ∧
    ∃ cs, parse_constraints (String.toList "under 5 million") = .ok cs :=
  ⟨c10_budget_parse_total.1 (String.toList "under 5 million")
      [(1, String.toList "5 million")] (String.toList "5 million")
      (by decide) (by decide),
    c10_budget_parse_total.2 (String.toList "under 5 million")⟩
